import Mathlib

/-!
Verification of the `go_monkey` bytecode toolchain: a shallow embedding of
the `code` package (opcode catalogue, instruction encoder/decoder,
disassembler), the compiler, and the parser, with theorems settling the
specification claims.

Machine integers are modelled as `Nat` with explicit `% 2 ^ w` where the Go
code converts to `uint16` / `byte`; all operand values reaching these
conversions in the Go program are non-negative.
-/

namespace Monkey

/-! ## Opcode catalogue (`code` package)

`Opcode` is a byte in Go; the constants are produced by `iota`, so their
numeric values follow the order of declaration in the source:
OpConstant, OpAdd, OpPop, OpSub, OpMul, OpDiv, OpTrue, OpFalse, ... -/

abbrev Opcode := Nat

def OpConstant : Opcode := 0
def OpAdd : Opcode := 1
def OpPop : Opcode := 2
def OpSub : Opcode := 3
def OpMul : Opcode := 4
def OpDiv : Opcode := 5
def OpTrue : Opcode := 6
def OpFalse : Opcode := 7
def OpEqual : Opcode := 8
def OpNotEqual : Opcode := 9
def OpGreaterThan : Opcode := 10
def OpMinus : Opcode := 11
def OpBang : Opcode := 12
def OpJumpNotTruthy : Opcode := 13
def OpJump : Opcode := 14
def OpNull : Opcode := 15
def OpGetGlobal : Opcode := 16
def OpSetGlobal : Opcode := 17
def OpGetLocal : Opcode := 18
def OpSetLocal : Opcode := 19
def OpArray : Opcode := 20
def OpHash : Opcode := 21
def OpIndex : Opcode := 22
def OpCall : Opcode := 23
def OpReturnValue : Opcode := 24
def OpReturn : Opcode := 25
def OpGetBuiltin : Opcode := 26
def OpClosure : Opcode := 27
def OpGetFree : Opcode := 28
def OpCurrentClosure : Opcode := 29

/-- A `Definition` from the source: human-readable name and the byte width
of each operand. -/
structure Definition where
  name : String
  operandWidths : List Nat
deriving Repr, DecidableEq

/-- The `definitions` map of the source, as an association list
(opcode value, definition). -/
def definitionsList : List (Opcode × Definition) :=
  [ (OpConstant, ⟨"OpConstant", [2]⟩),
    (OpAdd, ⟨"OpAdd", []⟩),
    (OpPop, ⟨"OpPop", []⟩),
    (OpSub, ⟨"OpSub", []⟩),
    (OpMul, ⟨"OpMul", []⟩),
    (OpDiv, ⟨"OpDiv", []⟩),
    (OpTrue, ⟨"OpTrue", []⟩),
    (OpFalse, ⟨"OpFalse", []⟩),
    (OpEqual, ⟨"OpEqual", []⟩),
    (OpNotEqual, ⟨"OpNotEqual", []⟩),
    (OpGreaterThan, ⟨"OpGreaterThan", []⟩),
    (OpMinus, ⟨"OpMinus", []⟩),
    (OpBang, ⟨"OpBang", []⟩),
    (OpJumpNotTruthy, ⟨"OpJumpNotTruthy", [2]⟩),
    (OpJump, ⟨"OpJump", [2]⟩),
    (OpNull, ⟨"OpNull", []⟩),
    (OpGetGlobal, ⟨"OpGetGlobal", [2]⟩),
    (OpSetGlobal, ⟨"OpSetGlobal", [2]⟩),
    (OpGetLocal, ⟨"OpGetLocal", [1]⟩),
    (OpSetLocal, ⟨"OpSetLocal", [1]⟩),
    (OpArray, ⟨"OpArray", [2]⟩),
    (OpHash, ⟨"OpHash", [2]⟩),
    (OpIndex, ⟨"OpIndex", []⟩),
    (OpCall, ⟨"OpCall", [1]⟩),
    (OpReturnValue, ⟨"OpReturnValue", []⟩),
    (OpReturn, ⟨"OpReturn", []⟩),
    (OpGetBuiltin, ⟨"OpGetBuiltin", [1]⟩),
    (OpClosure, ⟨"OpClosure", [2, 1]⟩),
    (OpGetFree, ⟨"OpGetFree", [1]⟩),
    (OpCurrentClosure, ⟨"OpCurrentClosure", []⟩) ]

/-- `Lookup` from the source: the map access `definitions[Opcode(op)]`,
`none` when the opcode is undefined. -/
def lookup (op : Nat) : Option Definition :=
  (definitionsList.find? (fun p => p.1 == op)).map (·.2)

/-- Encoding of one operand value into `width` bytes, as written by the
`switch width` in `Make`: width 2 is `binary.BigEndian.PutUint16`
(big-endian, value truncated to `uint16`), width 1 is a `byte` conversion
(truncated to 8 bits).  Any other width writes nothing, leaving the
pre-allocated zero bytes of the instruction buffer in place. -/
def putOperand (width o : Nat) : List Nat :=
  match width with
  | 2 => [o % 65536 / 256, o % 65536 % 256]
  | 1 => [o % 256]
  | w => List.replicate w 0

/-- The operand-encoding loop of `Make`: each operand is written with its
declared width.  When fewer operands than widths are supplied, the
remaining slots of the pre-allocated buffer stay zero.  (Supplying more
operands than declared widths makes the Go code panic on
`def.Operandwidths[i]`; no caller does that and that domain is outside the
model.) -/
def encodeOperands : List Nat → List Nat → List Nat
  | [], _ => []
  | w :: ws, [] => List.replicate w 0 ++ encodeOperands ws []
  | w :: ws, o :: os => putOperand w o ++ encodeOperands ws os

/-- `Make` from the source: empty sequence for an undefined opcode,
otherwise the opcode byte followed by the operands encoded at their
declared widths. -/
def Make (op : Opcode) (operands : List Nat) : List Nat :=
  match lookup op with
  | none => []
  | some dfn => op % 256 :: encodeOperands dfn.operandWidths operands

/-- `ReadUint16` from the source: `binary.BigEndian.Uint16`, which needs at
least two bytes (the Go code panics otherwise — modelled as `none`). -/
def ReadUint16 (ins : List Nat) : Option Nat :=
  match ins with
  | a :: b :: _ => some (a * 256 + b)
  | _ => none

/-- `ReadUint8` from the source: the first byte (panic on empty input,
modelled as `none`). -/
def ReadUint8 (ins : List Nat) : Option Nat :=
  ins.head?

/-- `ReadOperands` from the source: read one operand per declared width
(width 2 big-endian, width 1 single byte, any other width reads nothing and
leaves the pre-allocated 0), returning the operands and the total offset
consumed.  `none` models the Go panic on a truncated instruction. -/
def ReadOperands : List Nat → List Nat → Option (List Nat × Nat)
  | [], _ => some ([], 0)
  | w :: ws, ins =>
    match w with
    | 2 => do
        let v ← ReadUint16 ins
        let (rest, off) ← ReadOperands ws (ins.drop 2)
        some (v :: rest, off + 2)
    | 1 => do
        let v ← ReadUint8 ins
        let (rest, off) ← ReadOperands ws (ins.drop 1)
        some (v :: rest, off + 1)
    | _ => do
        let (rest, off) ← ReadOperands ws (ins.drop w)
        some (0 :: rest, off + w)

/-! ## Disassembler (`Instructions.String`)

The method walks the byte stream with an offset `i`.  The model keeps the
loop structure of the source exactly; the formatted text appended to the
output buffer is abstracted to one string per loop iteration, since the
claims about this method concern only its control flow. -/

/-- Result of one iteration of the `for i < len(ins)` loop of
`Instructions.String`: either the loop has finished, or execution panicked
while slicing/decoding operands (truncated instruction), or the loop
continues with a new offset and output buffer. -/
inductive StepResult where
  | done : List String → StepResult
  | panicked : StepResult
  | next : Nat → List String → StepResult
deriving Repr, DecidableEq

/-- One iteration of the loop in `Instructions.String`.  On an undefined
opcode the source prints an error and `continue`s WITHOUT advancing `i`;
otherwise it reads the operands and advances by `1 + read`. -/
def disasmStep (ins : List Nat) (i : Nat) (out : List String) : StepResult :=
  if i < ins.length then
    match lookup (ins.getD i 0) with
    | none => .next i (out ++ ["ERROR: opcode undefined"])
    | some dfn =>
      match ReadOperands dfn.operandWidths (ins.drop (i + 1)) with
      | none => .panicked
      | some (_, read) => .next (i + 1 + read) (out ++ ["instruction line"])
  else
    .done out

/-- The loop of `Instructions.String`, driven by explicit fuel: `none`
means the fuel ran out before the loop finished (used to express
non-termination), `some` is the Go outcome (final buffer, or a decoding
panic modelled as `none` inside the `Option` result `some none`). -/
def disasmRun (fuel : Nat) (ins : List Nat) (i : Nat) (out : List String) :
    Option (Option (List String)) :=
  match fuel with
  | 0 => none
  | fuel + 1 =>
    match disasmStep ins i out with
    | .done o => some (some o)
    | .panicked => some none
    | .next i' out' => disasmRun fuel ins i' out'

/-- `Instructions.String` reaches an outcome (normal return or panic) on
input `ins`. -/
def DisasmTerminates (ins : List Nat) : Prop :=
  ∃ fuel r, disasmRun fuel ins 0 [] = some r

/-! ## Lemmas about the encoder/decoder -/

/-- Truncating an operand to its declared width before encoding changes
nothing: `putOperand` already truncates. -/
lemma putOperand_mod (w o : Nat) :
    putOperand w (o % 2 ^ (8 * w)) = putOperand w o := by
  rcases w with _ | _ | _ | n
  · rfl
  · simp [putOperand, Nat.pow_succ]
  · show putOperand 2 (o % 2 ^ 16) = putOperand 2 o
    simp only [putOperand]
    norm_num [Nat.mod_mod_of_dvd]
  · rfl

/-- The operand-encoding loop is unchanged by truncating each operand to
its declared width. -/
lemma encodeOperands_mod (ws os : List Nat) :
    encodeOperands ws (List.zipWith (fun o w => o % 2 ^ (8 * w)) os ws) =
      encodeOperands ws os := by
  induction ws generalizing os with
  | nil => rfl
  | cons w ws ih =>
    cases os with
    | nil => rfl
    | cons o os =>
      simp only [List.zipWith, encodeOperands, ih]
      rw [putOperand_mod]

/-- Every definition in the catalogue declares only widths 1 and 2. -/
lemma lookup_widths_valid (op : Nat) (dfn : Definition)
    (h : lookup op = some dfn) : ∀ w ∈ dfn.operandWidths, w = 1 ∨ w = 2 := by
  have hmem : ∃ p ∈ definitionsList, p.2 = dfn := by
    simp only [lookup, Option.map_eq_some'] at h
    obtain ⟨p, hp, hpd⟩ := h
    exact ⟨p, List.mem_of_find?_eq_some hp, hpd⟩
  obtain ⟨p, hp, rfl⟩ := hmem
  revert hp
  have : ∀ p ∈ definitionsList, ∀ w ∈ p.2.operandWidths, w = 1 ∨ w = 2 := by
    decide
  exact fun hp => this p hp

/-- Round trip for one well-formed operand list: decoding the bytes that
`encodeOperands` produced recovers the operands and consumes the sum of
the widths.  Requires every width to be 1 or 2 (true of the catalogue) and
every operand to fit its width. -/
lemma readOperands_encodeOperands (ws os : List Nat)
    (hws : ∀ w ∈ ws, w = 1 ∨ w = 2)
    (hos : List.Forall₂ (fun o w => o < 2 ^ (8 * w)) os ws) :
    ReadOperands ws (encodeOperands ws os) = some (os, ws.sum) := by
  induction hos with
  | nil => rfl
  | @cons o w os' ws' ho _ ih =>
    have hw : w = 1 ∨ w = 2 := hws w (by simp)
    have hws' : ∀ u ∈ ws', u = 1 ∨ u = 2 := fun u hu => hws u (by simp [hu])
    rcases hw with rfl | rfl
    · have ho' : o < 256 := by simpa using ho
      have hmod : o % 256 = o := Nat.mod_eq_of_lt ho'
      simp only [encodeOperands, putOperand, List.cons_append, List.nil_append,
        ReadOperands, ReadUint8, List.head?, List.drop_succ_cons, List.drop_zero,
        ih hws', Option.bind_eq_bind, Option.some_bind, List.sum_cons, hmod]
      exact congrArg some (by rw [Nat.add_comm])
    · have ho' : o < 65536 := by
        have h2 : (2 : Nat) ^ (8 * 2) = 65536 := by norm_num
        rw [h2] at ho
        exact ho
      have hmod : o % 65536 = o := Nat.mod_eq_of_lt ho'
      have hsplit : o % 65536 / 256 * 256 + o % 65536 % 256 = o := by
        rw [hmod]
        omega
      simp only [encodeOperands, putOperand, List.cons_append,
        List.nil_append, ReadOperands, ReadUint16, List.drop_succ_cons,
        List.drop_zero, ih hws', Option.bind_eq_bind, Option.some_bind,
        List.sum_cons, hsplit]
      exact congrArg some (by rw [Nat.add_comm])

/-! ## Lemmas about the disassembler loop -/

/-- Every byte value below 30 is a defined opcode. -/
lemma lookup_isSome_of_lt (b : Nat) (h : b < 30) : (lookup b).isSome := by
  interval_cases b <;> decide

/-- On the input `[255]` (a single undefined opcode byte) the loop of
`Instructions.String` never advances `i`, so no amount of fuel finishes
the run. -/
lemma disasmRun_undefined_loops :
    ∀ fuel out, disasmRun fuel [255] 0 out = none := by
  intro fuel
  induction fuel with
  | zero => intro out; rfl
  | succ n ih =>
    intro out
    have hstep : disasmStep [255] 0 out =
        .next 0 (out ++ ["ERROR: opcode undefined"]) := rfl
    simp only [disasmRun, hstep]
    exact ih _

/-- When every byte of the input is a defined opcode value, each loop
iteration either finishes, panics on a truncated operand, or advances the
offset by at least one byte; so `ins.length + 1` units of fuel always
suffice. -/
lemma disasmRun_total (ins : List Nat) (hins : ∀ b ∈ ins, b < 30) :
    ∀ fuel i out, ins.length - i < fuel →
      ∃ r, disasmRun fuel ins i out = some r := by
  intro fuel
  induction fuel with
  | zero => intro i out h; omega
  | succ n ih =>
    intro i out h
    by_cases hi : i < ins.length
    · have hgd : ins.getD i 0 = ins[i] := List.getD_eq_getElem ins 0 hi
      have hb : ins.getD i 0 < 30 := by
        rw [hgd]
        exact hins _ (List.getElem_mem hi)
      have hsome := lookup_isSome_of_lt _ hb
      obtain ⟨dfn, hdfn⟩ := Option.isSome_iff_exists.mp hsome
      cases hro : ReadOperands dfn.operandWidths (ins.drop (i + 1)) with
      | none =>
        refine ⟨none, ?_⟩
        simp [disasmRun, disasmStep, hi, hgd ▸ hdfn, hro]
      | some pr =>
        have hstep : disasmStep ins i out =
            .next (i + 1 + pr.2) (out ++ ["instruction line"]) := by
          simp [disasmStep, hi, hgd ▸ hdfn, hro]
        simp only [disasmRun, hstep]
        exact ih _ _ (by omega)
    · exact ⟨some out, by simp [disasmRun, disasmStep, hi]⟩

/-! ## Claim theorems: the `code` package -/

/-- C1 (counterexample): the claim places OpPop at numeric value 5
directly after OpDiv, but in the source `iota` assigns OpPop = 2 (it is
declared right after OpAdd) and OpDiv = 5. -/
theorem opcode_order_claim_false : ¬ (OpPop = 5) := by decide

/-- C1 (amended): `iota` assigns the opcode values in declaration order:
OpConstant = 0, then OpAdd, OpPop, OpSub, OpMul, OpDiv, OpTrue, OpFalse,
OpEqual, OpNotEqual, OpGreaterThan, OpMinus, OpBang, OpJumpNotTruthy,
OpJump, OpNull, OpGetGlobal, OpSetGlobal, OpGetLocal, OpSetLocal, OpArray,
OpHash, OpIndex, OpCall, OpReturnValue, OpReturn, OpGetBuiltin, OpClosure,
OpGetFree, OpCurrentClosure; in particular OpPop = 2, directly after
OpAdd, and the catalogue names each value accordingly. -/
theorem opcode_order : OpConstant = 0 ∧ OpAdd = 1 ∧ OpPop = 2 ∧ OpSub = 3 ∧
    OpMul = 4 ∧ OpDiv = 5 ∧ OpTrue = 6 ∧ OpFalse = 7 ∧ OpEqual = 8 ∧
    OpNotEqual = 9 ∧ OpGreaterThan = 10 ∧ OpMinus = 11 ∧ OpBang = 12 ∧
    OpJumpNotTruthy = 13 ∧ OpJump = 14 ∧ OpNull = 15 ∧ OpGetGlobal = 16 ∧
    OpSetGlobal = 17 ∧ OpGetLocal = 18 ∧ OpSetLocal = 19 ∧ OpArray = 20 ∧
    OpHash = 21 ∧ OpIndex = 22 ∧ OpCall = 23 ∧ OpReturnValue = 24 ∧
    OpReturn = 25 ∧ OpGetBuiltin = 26 ∧ OpClosure = 27 ∧ OpGetFree = 28 ∧
    OpCurrentClosure = 29 ∧
    (lookup OpPop).map (·.name) = some "OpPop" ∧
    (lookup OpDiv).map (·.name) = some "OpDiv" := by
  decide

/-- C2: `Make` and `ReadOperands` are mutually inverse on every
well-formed instruction: for a defined opcode and operands that each fit
their declared width, decoding the bytes after the leading opcode byte
returns the original operands and consumes exactly the sum of the
widths. -/
theorem make_readOperands_inverse (op : Opcode) (dfn : Definition)
    (operands : List Nat) (hdef : lookup op = some dfn)
    (hfit : List.Forall₂ (fun o w => o < 2 ^ (8 * w)) operands
      dfn.operandWidths) :
    ReadOperands dfn.operandWidths ((Make op operands).drop 1) =
      some (operands, dfn.operandWidths.sum) := by
  have hws := lookup_widths_valid op dfn hdef
  simp only [Make, hdef, List.drop_succ_cons, List.drop_zero]
  exact readOperands_encodeOperands _ _ hws hfit

/-- C2 (witness): the round trip at OpClosure with operands [300, 7]. -/
theorem make_readOperands_inverse_witness :
    ReadOperands [2, 1] ((Make OpClosure [300, 7]).drop 1) =
      some ([300, 7], 3) :=
  make_readOperands_inverse OpClosure ⟨"OpClosure", [2, 1]⟩ [300, 7]
    (by decide)
    (List.Forall₂.cons (by norm_num) (List.Forall₂.cons (by norm_num)
      List.Forall₂.nil))

/-- C9 (counterexample): `Instructions.String` does NOT terminate on every
byte sequence: on the input `[255]`, whose only byte is not a defined
opcode, the error branch `continue`s without advancing the offset and the
loop never finishes. -/
theorem disasm_terminates_claim_false : ¬ DisasmTerminates [255] := by
  rintro ⟨fuel, r, h⟩
  rw [disasmRun_undefined_loops fuel []] at h
  exact Option.noConfusion h

/-- C9 (amended): `Instructions.String` terminates on every byte sequence
in which every byte is a defined opcode value (below 30); on a byte that
is not a defined opcode, the error branch continues without advancing the
offset, so the loop runs forever. -/
theorem disasm_terminates_on_defined_opcodes (ins : List Nat)
    (hins : ∀ b ∈ ins, b < 30) : DisasmTerminates ins := by
  obtain ⟨r, hr⟩ := disasmRun_total ins hins (ins.length + 1) 0 [] (by omega)
  exact ⟨ins.length + 1, r, hr⟩

/-- C9 (witness): the three-byte sequence `OpConstant 5` disassembles to
completion. -/
theorem disasm_terminates_on_defined_opcodes_witness :
    DisasmTerminates [0, 0, 5] :=
  disasm_terminates_on_defined_opcodes [0, 0, 5] (by decide)

/-- C10: `Make` does not range-check operand values: encoding truncates
every operand to its declared width (`v mod 2^16` for width 2, `v mod 2^8`
for width 1), so an out-of-range operand is silently wrapped rather than
rejected.  Concretely, a constant-pool index of 65536 encodes as the bytes
of 0, and an OpCall argument count of 256 encodes as 0. -/
theorem make_truncates_operands :
    (∀ op dfn operands, lookup op = some dfn →
      Make op operands =
        Make op (List.zipWith (fun o w => o % 2 ^ (8 * w)) operands
          dfn.operandWidths)) ∧
    Make OpConstant [65536] = [OpConstant, 0, 0] ∧
    Make OpCall [256] = [OpCall, 0] := by
  refine ⟨?_, by decide, by decide⟩
  intro op dfn operands hdef
  simp only [Make, hdef, encodeOperands_mod]

/-- C10 (witness): the truncation law applied at OpConstant with the
out-of-range operand 65536. -/
theorem make_truncates_operands_witness :
    Make OpConstant [65536] =
      Make OpConstant (List.zipWith (fun o w => o % 2 ^ (8 * w)) [65536]
        [2]) :=
  make_truncates_operands.1 OpConstant ⟨"OpConstant", [2]⟩ [65536]
    (by decide)

/-! ## AST (`ast` package, input contract of the compiler)

`nilE` / `nilS` stand for the nil node pointers that the Go parser can
store on malformed input (a nil `ast.Expression` matches no case of the
compiler's type switch, so compiling it is a no-op that returns no
error). -/

mutual
inductive Expr where
  | nilE : Expr
  | ident (value : String) : Expr
  | intLit (value : Int) : Expr
  | strLit (value : String) : Expr
  | boolLit (value : Bool) : Expr
  | prefixE (op : String) (right : Expr) : Expr
  | infixE (op : String) (left right : Expr) : Expr
  | ifE (cond : Expr) (consequence : List Stmt)
      (alternative : Option (List Stmt)) : Expr
  | fnLit (name : String) (params : List String) (body : List Stmt) : Expr
  | call (fn : Expr) (args : List Expr) : Expr
  | arrayLit (elements : List Expr) : Expr
  | hashLit (pairs : List (Expr × Expr)) : Expr
  | indexE (left index : Expr) : Expr

inductive Stmt where
  | nilS : Stmt
  | letS (name : String) (value : Expr) : Stmt
  | returnS (value : Expr) : Stmt
  | exprS (expr : Expr) : Stmt
end

mutual
/-- Modelled from the spec: the `ast` package's `String()` methods are not
part of the provided sources; §6.2 requires only "a deterministic
`String()` formatting" used for HashLiteral key sorting, so this follows
the customary source-representation formatting of each node kind. -/
def exprString : Expr → String
  | .nilE => ""
  | .ident v => v
  | .intLit v => toString v
  | .strLit s => s
  | .boolLit b => cond b "true" "false"
  | .prefixE op r => "(" ++ op ++ exprString r ++ ")"
  | .infixE op l r =>
      "(" ++ exprString l ++ " " ++ op ++ " " ++ exprString r ++ ")"
  | .ifE c cons alt =>
      "if" ++ exprString c ++ " " ++ stmtsString cons ++
        (match alt with
         | some a => "else " ++ stmtsString a
         | none => "")
  | .fnLit name ps body =>
      "fn" ++ (if name == "" then "" else "<" ++ name ++ ">") ++ "(" ++
        String.intercalate ", " ps ++ ") " ++ stmtsString body
  | .call f args =>
      exprString f ++ "(" ++ String.intercalate ", " (exprStrings args) ++ ")"
  | .arrayLit es =>
      "[" ++ String.intercalate ", " (exprStrings es) ++ "]"
  | .hashLit ps =>
      "\x7b" ++ String.intercalate ", " (pairStrings ps) ++ "\x7d"
  | .indexE l i => "(" ++ exprString l ++ "[" ++ exprString i ++ "])"

def exprStrings : List Expr → List String
  | [] => []
  | e :: es => exprString e :: exprStrings es

def pairStrings : List (Expr × Expr) → List String
  | [] => []
  | (k, v) :: ps => (exprString k ++ ":" ++ exprString v) :: pairStrings ps

def stmtString : Stmt → String
  | .nilS => ""
  | .letS n v => "let " ++ n ++ " = " ++ exprString v ++ ";"
  | .returnS v => "return " ++ exprString v ++ ";"
  | .exprS e => exprString e

def stmtsString : List Stmt → String
  | [] => ""
  | s :: ss => stmtString s ++ stmtsString ss
end

/-! ## Runtime objects reachable from the compiler (`object` package) -/

/-- The object variants the compiler itself constructs: integer and string
constants and compiled functions. -/
inductive Obj where
  | intO (value : Int) : Obj
  | strO (value : String) : Obj
  | compiledFn (instructions : List Nat) (numLocals numParameters : Nat) : Obj

/-- Modelled from the spec: `object.Builtins` is not in the provided
sources; §4.5 specifies "a fixed ordered registry (index-addressable) of
named functions", minimum set len, first, last, rest, push, puts.  Only
the names matter to the compiler (they are pre-defined as builtin symbols
in the outermost scope). -/
def builtinNames : List String :=
  ["len", "first", "last", "rest", "push", "puts"]

/-! ## Symbol table

Modelled from the spec (§3.4, §4.2): the `compiler` package's symbol-table
file is not among the provided sources; only its callers in
`compiler.go` are.  A scope holds an ordered store, a definition count and
the captured free symbols, and links to its outer scope. -/

inductive SymbolScope where
  | globalScope | localScope | builtinScope | freeScope | functionScope
deriving Repr, DecidableEq

/-- A resolved name: (name, scope kind, index). -/
structure Symbol where
  name : String
  scope : SymbolScope
  index : Nat
deriving Repr, DecidableEq

/-- Modelled from the spec: a stack of scopes, each with an ordered store
(later definitions shadow earlier ones), `num_definitions`, and the
ordered `free_symbols` captured from outer scopes. -/
inductive SymbolTable where
  | mk (outer : Option SymbolTable) (store : List (String × Symbol))
      (numDefinitions : Nat) (freeSymbols : List Symbol) : SymbolTable

def SymbolTable.outer : SymbolTable → Option SymbolTable
  | .mk o _ _ _ => o

def SymbolTable.store : SymbolTable → List (String × Symbol)
  | .mk _ s _ _ => s

def SymbolTable.numDefinitions : SymbolTable → Nat
  | .mk _ _ n _ => n

def SymbolTable.freeSymbols : SymbolTable → List Symbol
  | .mk _ _ _ f => f

/-- Modelled from the spec: `Define(name)` assigns Global in the outermost
scope and Local otherwise, uses `num_definitions` as the index and
increments it. -/
def SymbolTable.define (st : SymbolTable) (name : String) :
    Symbol × SymbolTable :=
  let scope := match st.outer with
    | none => SymbolScope.globalScope
    | some _ => SymbolScope.localScope
  let sym : Symbol := ⟨name, scope, st.numDefinitions⟩
  (sym, .mk st.outer ((name, sym) :: st.store) (st.numDefinitions + 1)
    st.freeSymbols)

/-- Modelled from the spec: `DefineBuiltin(i, name)` inserts a Builtin
symbol with index `i` without consuming a definition slot. -/
def SymbolTable.defineBuiltin (st : SymbolTable) (i : Nat) (name : String) :
    SymbolTable :=
  .mk st.outer ((name, ⟨name, .builtinScope, i⟩) :: st.store)
    st.numDefinitions st.freeSymbols

/-- Modelled from the spec: `DefineFunctionName(name)` inserts a
FunctionScope symbol with index 0 without consuming a Local slot. -/
def SymbolTable.defineFunctionName (st : SymbolTable) (name : String) :
    SymbolTable :=
  .mk st.outer ((name, ⟨name, .functionScope, 0⟩) :: st.store)
    st.numDefinitions st.freeSymbols

/-- Modelled from the spec: `Resolve(name)` looks up the cursor scope, on
a miss recurses into the outer scope, and promotes a Local or Free symbol
found in an outer scope to a Free symbol of the current scope whose index
is the position at which the original symbol is recorded in
`free_symbols`; Global, Builtin and FunctionScope symbols are returned
unchanged. -/
def SymbolTable.resolve : SymbolTable → String →
    Option (Symbol × SymbolTable)
  | .mk outer store numDefs free, name =>
    match store.find? (fun p => p.1 == name) with
    | some p => some (p.2, .mk outer store numDefs free)
    | none =>
      match outer with
      | none => none
      | some o =>
        match o.resolve name with
        | none => none
        | some (sym, o') =>
          match sym.scope with
          | .globalScope | .builtinScope | .functionScope =>
              some (sym, .mk (some o') store numDefs free)
          | _ =>
            let freeSym : Symbol := ⟨name, .freeScope, free.length⟩
            some (freeSym, .mk (some o') ((name, freeSym) :: store) numDefs
              (free ++ [sym]))

/-! ## Compiler state (`compiler` package) -/

/-- `EmittedInstruction` from the source: opcode and starting byte offset
of the most recently appended instruction.  The Go zero value is
(Opcode 0, position 0). -/
structure EmittedInstruction where
  opcode : Opcode := 0
  position : Nat := 0
deriving Repr, DecidableEq

/-- `CompilationScope` from the source. -/
structure CompilationScope where
  instructions : List Nat := []
  lastInstruction : EmittedInstruction := {}
  previousInstruction : EmittedInstruction := {}

/-- The `Compiler` of the source.  `scope` is `scopes[scopeIndex]` and
`outerScopes` the scopes below it, innermost first.  `emitLog` is a ghost
field with no Go counterpart: it records, in order, the opcode of every
`emit` call, and no other operation touches it; it exists only to state
which compilation cases emit which opcodes. -/
structure Compiler where
  constants : List Obj
  symbolTable : SymbolTable
  scope : CompilationScope
  outerScopes : List CompilationScope
  emitLog : List Opcode

/-- `New()` from the source: one empty main scope and a symbol table
pre-loaded with the builtins. -/
def newCompiler : Compiler :=
  { constants := []
    symbolTable :=
      (builtinNames.enum.foldl
        (fun st p => st.defineBuiltin p.1 p.2) (.mk none [] 0 []))
    scope := {}
    outerScopes := []
    emitLog := [] }

def Compiler.currentInstructions (c : Compiler) : List Nat :=
  c.scope.instructions

/-- `addInstruction` from the source: append and return the starting byte
offset of the appended instruction. -/
def Compiler.addInstruction (c : Compiler) (ins : List Nat) :
    Compiler × Nat :=
  let pos := c.currentInstructions.length
  ({ c with scope := { c.scope with
      instructions := c.currentInstructions ++ ins } }, pos)

/-- `setLastInstruction` from the source. -/
def Compiler.setLastInstruction (c : Compiler) (op : Opcode) (pos : Nat) :
    Compiler :=
  { c with scope := { c.scope with
      previousInstruction := c.scope.lastInstruction
      lastInstruction := ⟨op, pos⟩ } }

/-- `emit` from the source: encode with `Make`, append, record as last
instruction; also records the opcode in the ghost `emitLog`. -/
def Compiler.emit (c : Compiler) (op : Opcode) (operands : List Nat) :
    Compiler × Nat :=
  let ins := Make op operands
  let (c, pos) := c.addInstruction ins
  let c := c.setLastInstruction op pos
  ({ c with emitLog := c.emitLog ++ [op] }, pos)

/-- `lastInstructionIs` from the source. -/
def Compiler.lastInstructionIs (c : Compiler) (op : Opcode) : Bool :=
  if c.currentInstructions.length == 0 then false
  else c.scope.lastInstruction.opcode == op

/-- `removeLastPop` from the source: truncate the instructions at the last
instruction's position and restore the previous instruction. -/
def Compiler.removeLastPop (c : Compiler) : Compiler :=
  { c with scope := { c.scope with
      instructions := c.currentInstructions.take
        c.scope.lastInstruction.position
      lastInstruction := c.scope.previousInstruction } }

/-- The byte-overwriting loop of `replaceInstruction`:
`ins[pos+i] = newInstruction[i]` (writes past the end would panic in Go;
`List.set` is then a no-op — all call sites stay in range). -/
def overwriteBytes (l : List Nat) (pos : Nat) : List Nat → List Nat
  | [] => l
  | b :: bs => overwriteBytes (l.set pos b) (pos + 1) bs

/-- `replaceInstruction` from the source. -/
def Compiler.replaceInstruction (c : Compiler) (pos : Nat)
    (newInstruction : List Nat) : Compiler :=
  { c with scope := { c.scope with
      instructions := overwriteBytes c.currentInstructions pos
        newInstruction } }

/-- `changeOperand` from the source: re-encode the instruction whose
opcode byte is at `opPos` with the new operand and overwrite it in
place. -/
def Compiler.changeOperand (c : Compiler) (opPos operand : Nat) :
    Compiler :=
  let op := c.currentInstructions.getD opPos 0
  let newInstruction := Make op [operand]
  c.replaceInstruction opPos newInstruction

/-- `replaceLastPopWithReturn` from the source: overwrite the last
instruction (an OpPop, same one-byte width) with OpReturnValue and update
the recorded opcode. -/
def Compiler.replaceLastPopWithReturn (c : Compiler) : Compiler :=
  let lastPos := c.scope.lastInstruction.position
  let c := c.replaceInstruction lastPos (Make OpReturnValue [])
  { c with scope := { c.scope with
      lastInstruction := { c.scope.lastInstruction with
        opcode := OpReturnValue } } }

/-- `addConstant` from the source: append to the pool, return the index. -/
def Compiler.addConstant (c : Compiler) (obj : Obj) : Compiler × Nat :=
  ({ c with constants := c.constants ++ [obj] }, c.constants.length)

/-- `enterScope` from the source: push a fresh compilation scope and an
enclosed symbol table. -/
def Compiler.enterScope (c : Compiler) : Compiler :=
  { c with
    scope := {}
    outerScopes := c.scope :: c.outerScopes
    symbolTable := .mk (some c.symbolTable) [] 0 [] }

/-- `leaveScope` from the source: pop the scope, return its instructions,
restore the outer symbol table.  (An empty scope stack or a missing outer
table would be a nil dereference in Go; neither occurs, as `enterScope`
always precedes.) -/
def Compiler.leaveScope (c : Compiler) : Compiler × List Nat :=
  let instructions := c.currentInstructions
  match c.outerScopes with
  | s :: rest =>
    ({ c with
        scope := s
        outerScopes := rest
        symbolTable := c.symbolTable.outer.getD c.symbolTable },
      instructions)
  | [] =>
    ({ c with symbolTable := c.symbolTable.outer.getD c.symbolTable },
      instructions)

/-- `loadSymbol` from the source: emit the load instruction matching the
symbol's scope. -/
def Compiler.loadSymbol (c : Compiler) (s : Symbol) : Compiler :=
  match s.scope with
  | .globalScope => (c.emit OpGetGlobal [s.index]).1
  | .localScope => (c.emit OpGetLocal [s.index]).1
  | .builtinScope => (c.emit OpGetBuiltin [s.index]).1
  | .freeScope => (c.emit OpGetFree [s.index]).1
  | .functionScope => (c.emit OpCurrentClosure []).1

/-! ## The `Compile` method

Go's `Compile` is one recursive method switching on the node type; here it
is split by node sort.  Results are `Option (Except String Compiler)`:
the outer `Option` is recursion fuel (`none` = fuel exhausted, an
artefact of the embedding), the `Except` carries the Go error string. -/

abbrev CResult := Option (Except String Compiler)

/-- Sequencing of `Compile` steps: Go's `if err != nil { return err }`. -/
def andThen (r : CResult) (f : Compiler → CResult) : CResult :=
  match r with
  | none => none
  | some (.error e) => some (.error e)
  | some (.ok c) => f c

/-- Lexicographic order on character sequences: Go's `<` on strings is
byte-lexicographic, which on canonically UTF-8 encoded strings coincides
with lexicographic comparison of the scalar values of the characters. -/
def charListLT : List Char → List Char → Bool
  | _, [] => false
  | [], _ :: _ => true
  | a :: as, b :: bs =>
    if a.toNat < b.toNat then true
    else if b.toNat < a.toNat then false
    else charListLT as bs

/-- Go's `s < t` on strings. -/
def strLt (s t : String) : Bool :=
  charListLT s.data t.data

/-- The non-strict companion of `strLt`. -/
def strLe (s t : String) : Bool :=
  !(strLt t s)

lemma charListLT_irrefl : ∀ s, charListLT s s = false
  | [] => rfl
  | a :: as => by
    simp only [charListLT, Nat.lt_irrefl, if_false]
    exact charListLT_irrefl as

lemma charListLT_trans : ∀ s t u, charListLT s t = true →
    charListLT t u = true → charListLT s u = true
  | [], [], _, h, _ => by simp [charListLT] at h
  | [], _ :: _, [], _, h => by simp [charListLT] at h
  | [], _ :: _, _ :: _, _, _ => rfl
  | _ :: _, [], _, h, _ => by simp [charListLT] at h
  | _ :: _, _ :: _, [], _, h => by simp [charListLT] at h
  | a :: as, b :: bs, c :: cs, h1, h2 => by
    simp only [charListLT] at h1 h2 ⊢
    by_cases hab : a.toNat < b.toNat
    · by_cases hbc : b.toNat < c.toNat
      · rw [if_pos (show a.toNat < c.toNat by omega)]
      · rw [if_neg hbc] at h2
        by_cases hcb : c.toNat < b.toNat
        · rw [if_pos hcb] at h2
          exact absurd h2 (by simp)
        · rw [if_pos (show a.toNat < c.toNat by omega)]
    · rw [if_neg hab] at h1
      by_cases hba : b.toNat < a.toNat
      · rw [if_pos hba] at h1
        exact absurd h1 (by simp)
      · rw [if_neg hba] at h1
        by_cases hbc : b.toNat < c.toNat
        · rw [if_pos (show a.toNat < c.toNat by omega)]
        · rw [if_neg hbc] at h2
          by_cases hcb : c.toNat < b.toNat
          · rw [if_pos hcb] at h2
            exact absurd h2 (by simp)
          · rw [if_neg hcb] at h2
            rw [if_neg (show ¬ a.toNat < c.toNat by omega),
              if_neg (show ¬ c.toNat < a.toNat by omega)]
            exact charListLT_trans as bs cs h1 h2

lemma charListLT_trichotomy : ∀ s t,
    charListLT s t = true ∨ charListLT t s = true ∨ s = t
  | [], [] => by simp
  | [], _ :: _ => by simp [charListLT]
  | _ :: _, [] => by simp [charListLT]
  | a :: as, b :: bs => by
    by_cases hab : a.toNat < b.toNat
    · exact Or.inl (by simp [charListLT, hab])
    · by_cases hba : b.toNat < a.toNat
      · exact Or.inr (Or.inl (by simp [charListLT, hba]))
      · have hc : a = b := by
          have h : a.toNat = b.toNat := by omega
          have := congrArg Char.ofNat h
          rwa [Char.ofNat_toNat, Char.ofNat_toNat] at this
        rcases charListLT_trichotomy as bs with h | h | h
        · exact Or.inl (by simp [charListLT, hab, hba, h])
        · refine Or.inr (Or.inl ?_)
          simp only [charListLT]
          rw [if_neg (show ¬ b.toNat < a.toNat from hba),
            if_neg (show ¬ a.toNat < b.toNat from hab)]
          exact h
        · exact Or.inr (Or.inr (by rw [hc, h]))

/-- Ordering used for HashLiteral keys: the source passes
`keys[i].String() < keys[j].String()` to `sort.Slice`, which produces a
permutation ordered by the key strings; the model realises it with a
deterministic stable sort by the same key. -/
def hashKeyLE (a b : Expr × Expr) : Prop :=
  strLe (exprString a.1) (exprString b.1) = true

instance : DecidableRel hashKeyLE := fun a b =>
  inferInstanceAs (Decidable (_ = true))

instance : IsTotal (Expr × Expr) hashKeyLE where
  total a b := by
    by_cases h : strLt (exprString b.1) (exprString a.1) = true
    · right
      simp only [hashKeyLE, strLe, Bool.not_eq_true']
      by_cases h2 : strLt (exprString a.1) (exprString b.1) = true
      · exact absurd (charListLT_trans _ _ _ h h2)
          (by simp [charListLT_irrefl, strLt])
      · simpa using h2
    · left
      simp only [hashKeyLE, strLe, Bool.not_eq_true']
      simpa using h

instance : IsTrans (Expr × Expr) hashKeyLE where
  trans a b c hab hbc := by
    simp only [hashKeyLE, strLe, Bool.not_eq_true', strLt] at hab hbc ⊢
    by_contra hca
    rw [Bool.not_eq_false] at hca
    rcases charListLT_trichotomy (exprString a.1).data
      (exprString b.1).data with h | h | h
    · exact absurd (charListLT_trans _ _ _ hca h) (by simp [hbc])
    · exact absurd h (by simp [hab])
    · exact absurd (h ▸ hca) (by simp [hbc])

mutual
/-- The `*ast.Program` / `*ast.BlockStatement` cases of `Compile`:
compile each statement in order. -/
def compileStmts (fuel : Nat) (stmts : List Stmt) (c : Compiler) :
    CResult :=
  match fuel with
  | 0 => none
  | fuel + 1 =>
    match stmts with
    | [] => some (.ok c)
    | s :: rest =>
      andThen (compileStmt fuel s c) (fun c => compileStmts fuel rest c)

/-- The statement cases of `Compile`.  (A nil statement pointer matches no
useful branch at runtime — the REPL never compiles a program whose parse
produced errors — and is modelled as a no-op.) -/
def compileStmt (fuel : Nat) (s : Stmt) (c : Compiler) : CResult :=
  match fuel with
  | 0 => none
  | fuel + 1 =>
    match s with
    | .nilS => some (.ok c)
    | .letS name value =>
      let p := c.symbolTable.define name
      let c := { c with symbolTable := p.2 }
      andThen (compileExpr fuel value c) (fun c =>
        if p.1.scope == .globalScope then
          some (.ok (c.emit OpSetGlobal [p.1.index]).1)
        else
          some (.ok (c.emit OpSetLocal [p.1.index]).1))
    | .returnS value =>
      andThen (compileExpr fuel value c) (fun c =>
        some (.ok (c.emit OpReturnValue []).1))
    | .exprS e =>
      andThen (compileExpr fuel e c) (fun c =>
        some (.ok (c.emit OpPop []).1))

/-- The expression cases of `Compile`.  (`nilE`, a nil
`ast.Expression`, matches no case of the type switch and returns no
error.) -/
def compileExpr (fuel : Nat) (e : Expr) (c : Compiler) : CResult :=
  match fuel with
  | 0 => none
  | fuel + 1 =>
    match e with
    | .nilE => some (.ok c)
    | .ident value =>
      match c.symbolTable.resolve value with
      | none => some (.error ("undefined variable " ++ value))
      | some (symbol, st) =>
        some (.ok (({ c with symbolTable := st }).loadSymbol symbol))
    | .intLit v =>
      let p := c.addConstant (.intO v)
      some (.ok (p.1.emit OpConstant [p.2]).1)
    | .strLit s =>
      let p := c.addConstant (.strO s)
      some (.ok (p.1.emit OpConstant [p.2]).1)
    | .boolLit b =>
      if b then some (.ok (c.emit OpTrue []).1)
      else some (.ok (c.emit OpFalse []).1)
    | .prefixE op right =>
      andThen (compileExpr fuel right c) (fun c =>
        match op with
        | "!" => some (.ok (c.emit OpBang []).1)
        | "-" => some (.ok (c.emit OpMinus []).1)
        | _ => some (.error ("unknown operator " ++ op)))
    | .infixE op left right =>
      if op == "<" then
        andThen (compileExpr fuel right c) (fun c =>
          andThen (compileExpr fuel left c) (fun c =>
            some (.ok (c.emit OpGreaterThan []).1)))
      else
        andThen (compileExpr fuel left c) (fun c =>
          andThen (compileExpr fuel right c) (fun c =>
            match op with
            | "+" => some (.ok (c.emit OpAdd []).1)
            | "-" => some (.ok (c.emit OpSub []).1)
            | "*" => some (.ok (c.emit OpMul []).1)
            | "/" => some (.ok (c.emit OpDiv []).1)
            | ">" => some (.ok (c.emit OpGreaterThan []).1)
            | "==" => some (.ok (c.emit OpEqual []).1)
            | "!=" => some (.ok (c.emit OpNotEqual []).1)
            | _ => some (.error ("unknown operator " ++ op))))
    | .ifE cond consequence alternative =>
      andThen (compileExpr fuel cond c) (fun c =>
        let pJNT := c.emit OpJumpNotTruthy [9999]
        andThen (compileStmts fuel consequence pJNT.1) (fun c =>
          let c := if c.lastInstructionIs OpPop then c.removeLastPop else c
          let pJ := c.emit OpJump [9999]
          let c := pJ.1
          let afterConsequencePos := c.currentInstructions.length
          let c := c.changeOperand pJNT.2 afterConsequencePos
          andThen
            (match alternative with
             | none => some (.ok (c.emit OpNull []).1)
             | some alt =>
               andThen (compileStmts fuel alt c) (fun c =>
                 some (.ok
                   (if c.lastInstructionIs OpPop then c.removeLastPop
                    else c))))
            (fun c =>
              let afterAlternativePos := c.currentInstructions.length
              some (.ok (c.changeOperand pJ.2 afterAlternativePos)))))
    | .fnLit name params body =>
      let c := c.enterScope
      let c := if name != "" then
          { c with symbolTable := c.symbolTable.defineFunctionName name }
        else c
      let c := params.foldl
        (fun c p => { c with symbolTable := (c.symbolTable.define p).2 }) c
      andThen (compileStmts fuel body c) (fun c =>
        let c := if c.lastInstructionIs OpPop then c.replaceLastPopWithReturn
          else c
        let c := if !(c.lastInstructionIs OpReturnValue) then
            (c.emit OpReturn []).1
          else c
        let freeSymbols := c.symbolTable.freeSymbols
        let numLocals := c.symbolTable.numDefinitions
        let q := c.leaveScope
        let c := freeSymbols.foldl Compiler.loadSymbol q.1
        let p := c.addConstant (.compiledFn q.2 numLocals params.length)
        some (.ok (p.1.emit OpClosure [p.2, freeSymbols.length]).1))
    | .call fn args =>
      andThen (compileExpr fuel fn c) (fun c =>
        andThen (compileExprs fuel args c) (fun c =>
          some (.ok (c.emit OpCall [args.length]).1)))
    | .arrayLit elements =>
      andThen (compileExprs fuel elements c) (fun c =>
        some (.ok (c.emit OpArray [elements.length]).1))
    | .hashLit pairs =>
      let sorted := pairs.insertionSort hashKeyLE
      andThen (compilePairs fuel sorted c) (fun c =>
        some (.ok (c.emit OpHash [pairs.length * 2]).1))
    | .indexE left index =>
      andThen (compileExpr fuel left c) (fun c =>
        andThen (compileExpr fuel index c) (fun c =>
          some (.ok (c.emit OpIndex []).1)))

/-- The argument/element loops of the `CallExpression` and `ArrayLiteral`
cases: compile each expression in order. -/
def compileExprs (fuel : Nat) (es : List Expr) (c : Compiler) : CResult :=
  match fuel with
  | 0 => none
  | fuel + 1 =>
    match es with
    | [] => some (.ok c)
    | e :: rest =>
      andThen (compileExpr fuel e c) (fun c => compileExprs fuel rest c)

/-- The loop of the `HashLiteral` case: for each pair (already in sorted
key order) compile the key, then its value. -/
def compilePairs (fuel : Nat) (ps : List (Expr × Expr)) (c : Compiler) :
    CResult :=
  match fuel with
  | 0 => none
  | fuel + 1 =>
    match ps with
    | [] => some (.ok c)
    | (k, v) :: rest =>
      andThen (compileExpr fuel k c) (fun c =>
        andThen (compileExpr fuel v c) (fun c => compilePairs fuel rest c))
end

/-! ## Claim-side descriptions of the compilation cases

Each of the following definitions transcribes the sentences of one spec
claim about a compilation case; the claim theorems compare them with the
embedded `Compile`. -/

/-- "with a trailing OpPop stripped when the last emitted instruction is
OpPop" (rolling back the instructions and restoring the previous
instruction). -/
def stripTrailingPop (c : Compiler) : Compiler :=
  if c.lastInstructionIs OpPop then c.removeLastPop else c

/-- C3, as the claim states it: emit the compiled condition;
OpJumpNotTruthy with placeholder operand 9999; the compiled consequence
with a trailing OpPop stripped; OpJump with placeholder 9999; patch the
OpJumpNotTruthy operand to the byte length of the current instructions
right after the OpJump; emit OpNull when there is no alternative,
otherwise the compiled alternative with a trailing OpPop stripped;
finally patch the OpJump operand to the byte length of the current
instructions. -/
def ifClaimCompile (fuel : Nat) (cond : Expr) (consequence : List Stmt)
    (alternative : Option (List Stmt)) (c : Compiler) : CResult :=
  andThen (compileExpr fuel cond c) (fun c =>
    let pJNT := c.emit OpJumpNotTruthy [9999]
    andThen (compileStmts fuel consequence pJNT.1) (fun c =>
      let pJ := (stripTrailingPop c).emit OpJump [9999]
      let afterConsequence := pJ.1.currentInstructions.length
      let c := pJ.1.changeOperand pJNT.2 afterConsequence
      andThen
        (match alternative with
         | none => some (.ok (c.emit OpNull []).1)
         | some alt =>
           andThen (compileStmts fuel alt c) (fun c =>
             some (.ok (stripTrailingPop c))))
        (fun c =>
          some (.ok (c.changeOperand pJ.2
            c.currentInstructions.length)))))

/-- C4, as the claim states it: compile the body in a freshly pushed
scope (with the function's own name and the parameters defined there);
replace a trailing OpPop in place by OpReturnValue; append OpReturn if
the last instruction still is not OpReturnValue; capture the free symbols
and `num_locals = num_definitions`; pop the scope; emit a load for each
captured free symbol, in capture order, in the enclosing scope; append
the CompiledFunction to the constant pool; emit OpClosure with (that
constant index, the number of free symbols). -/
def fnClaimCompile (fuel : Nat) (name : String) (params : List String)
    (body : List Stmt) (c : Compiler) : CResult :=
  let c := c.enterScope
  let c := if name != "" then
      { c with symbolTable := c.symbolTable.defineFunctionName name }
    else c
  let c := params.foldl
    (fun c p => { c with symbolTable := (c.symbolTable.define p).2 }) c
  andThen (compileStmts fuel body c) (fun c =>
    let c := if c.lastInstructionIs OpPop then c.replaceLastPopWithReturn
      else c
    let c := if !(c.lastInstructionIs OpReturnValue) then
        (c.emit OpReturn []).1
      else c
    let freeSymbols := c.symbolTable.freeSymbols
    let numLocals := c.symbolTable.numDefinitions
    let q := c.leaveScope
    let c := freeSymbols.foldl Compiler.loadSymbol q.1
    let p := c.addConstant (.compiledFn q.2 numLocals params.length)
    some (.ok (p.1.emit OpClosure [p.2, freeSymbols.length]).1))

/-- C5, as the claim states it: for `<` compile RIGHT then LEFT and emit
OpGreaterThan; for every other supported operator compile LEFT then RIGHT
and emit the matching opcode. -/
def infixClaimCompile (fuel : Nat) (op : String) (left right : Expr)
    (c : Compiler) : CResult :=
  if op == "<" then
    andThen (compileExpr fuel right c) (fun c =>
      andThen (compileExpr fuel left c) (fun c =>
        some (.ok (c.emit OpGreaterThan []).1)))
  else
    andThen (compileExpr fuel left c) (fun c =>
      andThen (compileExpr fuel right c) (fun c =>
        match op with
        | "+" => some (.ok (c.emit OpAdd []).1)
        | "-" => some (.ok (c.emit OpSub []).1)
        | "*" => some (.ok (c.emit OpMul []).1)
        | "/" => some (.ok (c.emit OpDiv []).1)
        | ">" => some (.ok (c.emit OpGreaterThan []).1)
        | "==" => some (.ok (c.emit OpEqual []).1)
        | "!=" => some (.ok (c.emit OpNotEqual []).1)
        | _ => some (.error ("unknown operator " ++ op))))

/-- The sorted key order of the HashLiteral case. -/
def sortedHashPairs (pairs : List (Expr × Expr)) : List (Expr × Expr) :=
  pairs.insertionSort hashKeyLE

/-- C7, as the claim states it: compile key then value for each pair in
the order sorted ascending by the keys' String() representation, then
emit OpHash with operand two times the number of pairs. -/
def hashClaimCompile (fuel : Nat) (pairs : List (Expr × Expr))
    (c : Compiler) : CResult :=
  andThen (compilePairs fuel (sortedHashPairs pairs) c) (fun c =>
    some (.ok (c.emit OpHash [2 * pairs.length]).1))

/-! ## Claim theorems: the compiler -/

/-- C3: the IfExpression case of `Compile` performs exactly the steps the
claim describes — condition, OpJumpNotTruthy 9999, consequence with
trailing OpPop stripped, OpJump 9999, patch of the OpJumpNotTruthy
operand to the byte length right after the OpJump, OpNull or the
alternative with trailing OpPop stripped, patch of the OpJump operand to
the final byte length. -/
theorem if_compilation (fuel : Nat) (cond : Expr) (consequence : List Stmt)
    (alternative : Option (List Stmt)) (c : Compiler) :
    compileExpr (fuel + 1) (.ifE cond consequence alternative) c =
      ifClaimCompile fuel cond consequence alternative c := rfl

/-- C4: the FunctionLiteral case of `Compile` performs exactly the steps
the claim describes; moreover the OpReturnValue overwrite has the same
byte length as the OpPop it replaces, and `addConstant` appends at the
end of the pool and returns that index. -/
theorem fn_compilation :
    (∀ fuel name params body c,
      compileExpr (fuel + 1) (.fnLit name params body) c =
        fnClaimCompile fuel name params body c) ∧
    (Make OpReturnValue []).length = (Make OpPop []).length ∧
    (∀ c obj, (Compiler.addConstant c obj).1.constants =
        c.constants ++ [obj] ∧
      (Compiler.addConstant c obj).2 = c.constants.length) :=
  ⟨fun _ _ _ _ _ => rfl, rfl, fun _ _ => ⟨rfl, rfl⟩⟩

/-- C5: the InfixExpression case compiles `<` as RIGHT, LEFT,
OpGreaterThan, every other supported operator as LEFT, RIGHT, matching
opcode, and the opcode catalogue contains no OpLessThan. -/
theorem infix_compilation :
    (∀ fuel op left right c,
      compileExpr (fuel + 1) (.infixE op left right) c =
        infixClaimCompile fuel op left right c) ∧
    (∀ op dfn, lookup op = some dfn → dfn.name ≠ "OpLessThan") := by
  refine ⟨fun _ _ _ _ _ => rfl, fun op dfn h => ?_⟩
  have hmem : ∃ p ∈ definitionsList, p.2 = dfn := by
    simp only [lookup, Option.map_eq_some'] at h
    obtain ⟨p, hp, hpd⟩ := h
    exact ⟨p, List.mem_of_find?_eq_some hp, hpd⟩
  obtain ⟨p, hp, rfl⟩ := hmem
  revert hp
  have : ∀ p ∈ definitionsList, p.2.name ≠ "OpLessThan" := by decide
  exact fun hp => this p hp

/-- C5 (witness): the equation at `1 < 2` and the name of the opcode that
`<` compiles to. -/
theorem infix_compilation_witness :
    compileExpr 1 (.infixE "<" (.intLit 1) (.intLit 2)) newCompiler =
      infixClaimCompile 0 "<" (.intLit 1) (.intLit 2) newCompiler ∧
    Definition.name ⟨"OpGreaterThan", []⟩ ≠ "OpLessThan" :=
  ⟨infix_compilation.1 0 "<" (.intLit 1) (.intLit 2) newCompiler,
    infix_compilation.2 OpGreaterThan ⟨"OpGreaterThan", []⟩ rfl⟩

/-- C7: the HashLiteral case compiles key then value for each pair in
the order sorted by the keys' String() representation and emits OpHash
with operand 2·pairs; the compilation order is sorted ascending
(`Pairwise hashKeyLE`) and is a permutation of the literal's pairs. -/
theorem hash_compilation :
    (∀ fuel pairs c,
      compileExpr (fuel + 1) (.hashLit pairs) c =
        hashClaimCompile fuel pairs c) ∧
    (∀ pairs : List (Expr × Expr),
      (sortedHashPairs pairs).Pairwise hashKeyLE) ∧
    (∀ pairs : List (Expr × Expr), (sortedHashPairs pairs).Perm pairs) := by
  refine ⟨fun fuel pairs c => ?_, fun pairs => ?_, fun pairs => ?_⟩
  · show andThen (compilePairs fuel (pairs.insertionSort hashKeyLE) c)
        (fun c => some (.ok (c.emit OpHash [pairs.length * 2]).1)) =
      andThen (compilePairs fuel (pairs.insertionSort hashKeyLE) c)
        (fun c => some (.ok (c.emit OpHash [2 * pairs.length]).1))
    exact congrArg _ (funext fun c => by rw [Nat.mul_comm])
  · exact List.sorted_insertionSort hashKeyLE pairs
  · exact List.perm_insertionSort hashKeyLE pairs

/-! ## OpPop provenance (C6)

`esCount*` counts the ExpressionStatement nodes of an AST fragment — the
compilations that, per the spec, are the only emitters of OpPop.  The
ghost `emitLog` lets us compare the number of OpPop `emit` calls with
that count. -/

mutual
def esCountStmt : Stmt → Nat
  | .nilS => 0
  | .letS _ v => esCountExpr v
  | .returnS v => esCountExpr v
  | .exprS e => esCountExpr e + 1

def esCountExpr : Expr → Nat
  | .nilE => 0
  | .ident _ => 0
  | .intLit _ => 0
  | .strLit _ => 0
  | .boolLit _ => 0
  | .prefixE _ r => esCountExpr r
  | .infixE _ l r => esCountExpr l + esCountExpr r
  | .ifE c cons alt =>
      esCountExpr c + esCountStmts cons +
        (match alt with
         | some a => esCountStmts a
         | none => 0)
  | .fnLit _ _ body => esCountStmts body
  | .call f args => esCountExpr f + esCountExprs args
  | .arrayLit es => esCountExprs es
  | .hashLit ps => esCountPairs ps
  | .indexE l i => esCountExpr l + esCountExpr i

def esCountStmts : List Stmt → Nat
  | [] => 0
  | s :: rest => esCountStmt s + esCountStmts rest

def esCountExprs : List Expr → Nat
  | [] => 0
  | e :: rest => esCountExpr e + esCountExprs rest

def esCountPairs : List (Expr × Expr) → Nat
  | [] => 0
  | (k, v) :: rest => esCountExpr k + esCountExpr v + esCountPairs rest
end

/-- Number of `emit` calls with opcode OpPop so far (from the ghost
log). -/
def popEmits (c : Compiler) : Nat :=
  c.emitLog.count OpPop

lemma popEmits_emit (c : Compiler) (op : Opcode) (ops : List Nat) :
    popEmits (c.emit op ops).1 =
      popEmits c + (if op = OpPop then 1 else 0) := by
  simp only [popEmits, Compiler.emit, Compiler.addInstruction,
    Compiler.setLastInstruction, List.count_append]
  by_cases h : op = OpPop <;>
    simp [h, List.count_cons, List.count_nil, eq_comm]

lemma popEmits_loadSymbol (c : Compiler) (s : Symbol) :
    popEmits (c.loadSymbol s) = popEmits c := by
  cases hs : s.scope <;>
    simp [Compiler.loadSymbol, hs, popEmits_emit, OpGetGlobal, OpGetLocal,
      OpGetBuiltin, OpGetFree, OpCurrentClosure, OpPop]

lemma popEmits_foldl_loadSymbol (ss : List Symbol) (c : Compiler) :
    popEmits (ss.foldl Compiler.loadSymbol c) = popEmits c := by
  induction ss generalizing c with
  | nil => rfl
  | cons s ss ih => simp [List.foldl_cons, ih, popEmits_loadSymbol]

lemma popEmits_removeLastPop (c : Compiler) :
    popEmits c.removeLastPop = popEmits c := rfl

lemma popEmits_changeOperand (c : Compiler) (p o : Nat) :
    popEmits (c.changeOperand p o) = popEmits c := rfl

lemma popEmits_replaceLastPopWithReturn (c : Compiler) :
    popEmits c.replaceLastPopWithReturn = popEmits c := rfl

lemma popEmits_addConstant (c : Compiler) (obj : Obj) :
    popEmits (c.addConstant obj).1 = popEmits c := rfl

lemma popEmits_enterScope (c : Compiler) :
    popEmits c.enterScope = popEmits c := rfl

lemma popEmits_leaveScope (c : Compiler) :
    popEmits c.leaveScope.1 = popEmits c := by
  cases h : c.outerScopes <;> simp [Compiler.leaveScope, h, popEmits]

lemma popEmits_foldl_define (ps : List String) (c : Compiler) :
    popEmits (ps.foldl
      (fun c p => { c with symbolTable := (c.symbolTable.define p).2 })
      c) = popEmits c := by
  induction ps generalizing c with
  | nil => rfl
  | cons p ps ih => rw [List.foldl_cons, ih]; rfl

lemma andThen_ok {r : CResult} {f : Compiler → CResult} {c' : Compiler}
    (h : andThen r f = some (.ok c')) :
    ∃ c₁, r = some (.ok c₁) ∧ f c₁ = some (.ok c') := by
  match r with
  | none => exact absurd h (by simp [andThen])
  | some (.error e) => exact absurd h (by simp [andThen])
  | some (.ok c₁) => exact ⟨c₁, rfl, h⟩



lemma esCountPairs_eq_sum (l : List (Expr × Expr)) :
    esCountPairs l =
      (l.map (fun p => esCountExpr p.1 + esCountExpr p.2)).sum := by
  induction l with
  | nil => rfl
  | cons p l ih =>
    cases p with
    | mk k v => simp [esCountPairs, ih]

lemma esCountPairs_sorted (l : List (Expr × Expr)) :
    esCountPairs (sortedHashPairs l) = esCountPairs l := by
  rw [esCountPairs_eq_sum, esCountPairs_eq_sum]
  exact ((List.perm_insertionSort hashKeyLE l).map _).sum_eq

lemma popEmits_compile : ∀ fuel : Nat,
    (∀ stmts c c', compileStmts fuel stmts c = some (.ok c') →
      popEmits c' = popEmits c + esCountStmts stmts) ∧
    (∀ s c c', compileStmt fuel s c = some (.ok c') →
      popEmits c' = popEmits c + esCountStmt s) ∧
    (∀ e c c', compileExpr fuel e c = some (.ok c') →
      popEmits c' = popEmits c + esCountExpr e) ∧
    (∀ es c c', compileExprs fuel es c = some (.ok c') →
      popEmits c' = popEmits c + esCountExprs es) ∧
    (∀ ps c c', compilePairs fuel ps c = some (.ok c') →
      popEmits c' = popEmits c + esCountPairs ps) := by
  intro fuel
  induction fuel with
  | zero =>
    refine ⟨?_, ?_, ?_, ?_, ?_⟩ <;>
      (intro x c c' h; exact absurd h (by simp [compileStmts, compileStmt,
        compileExpr, compileExprs, compilePairs]))
  | succ n ih =>
    obtain ⟨ihStmts, ihStmt, ihExpr, ihExprs, ihPairs⟩ := ih
    refine ⟨?_, ?_, ?_, ?_, ?_⟩
    · -- compileStmts
      intro stmts c c' h
      cases stmts with
      | nil =>
        simp only [compileStmts, Option.some.injEq, Except.ok.injEq] at h
        subst h
        simp [esCountStmts]
      | cons s rest =>
        simp only [compileStmts] at h
        obtain ⟨c₁, h1, h2⟩ := andThen_ok h
        have := ihStmt s c c₁ h1
        have := ihStmts rest c₁ c' h2
        simp [esCountStmts]
        omega
    · -- compileStmt
      intro s c c' h
      cases s with
      | nilS =>
        simp only [compileStmt, Option.some.injEq, Except.ok.injEq] at h
        subst h
        simp [esCountStmt]
      | letS name value =>
        simp only [compileStmt] at h
        obtain ⟨c₁, h1, h2⟩ := andThen_ok h
        have hv := ihExpr value _ c₁ h1
        have hc : popEmits { c with symbolTable := (c.symbolTable.define name).2 } = popEmits c := rfl
        split at h2 <;>
          (simp only [Option.some.injEq, Except.ok.injEq] at h2
           subst h2
           simp [esCountStmt, popEmits_emit, OpSetGlobal, OpSetLocal, OpPop] at hv ⊢
           simp only [hc] at hv
           omega)
      | returnS value =>
        simp only [compileStmt] at h
        obtain ⟨c₁, h1, h2⟩ := andThen_ok h
        have hv := ihExpr value c c₁ h1
        simp only [Option.some.injEq, Except.ok.injEq] at h2
        subst h2
        simp [esCountStmt, popEmits_emit, OpReturnValue, OpPop] at hv ⊢
        omega
      | exprS e =>
        simp only [compileStmt] at h
        obtain ⟨c₁, h1, h2⟩ := andThen_ok h
        have hv := ihExpr e c c₁ h1
        simp only [Option.some.injEq, Except.ok.injEq] at h2
        subst h2
        simp [esCountStmt, popEmits_emit, OpPop] at hv ⊢
        omega
    · -- compileExpr
      intro e c c' h
      cases e with
      | nilE =>
        simp only [compileExpr, Option.some.injEq, Except.ok.injEq] at h
        subst h
        simp [esCountExpr]
      | ident value =>
        simp only [compileExpr] at h
        split at h
        · exact absurd h (by simp)
        · simp only [Option.some.injEq, Except.ok.injEq] at h
          subst h
          simp [esCountExpr, popEmits_loadSymbol]
          rfl
      | intLit v =>
        simp only [compileExpr, Option.some.injEq, Except.ok.injEq] at h
        subst h
        simp [esCountExpr, popEmits_emit, popEmits_addConstant, OpConstant, OpPop]
      | strLit s =>
        simp only [compileExpr, Option.some.injEq, Except.ok.injEq] at h
        subst h
        simp [esCountExpr, popEmits_emit, popEmits_addConstant, OpConstant, OpPop]
      | boolLit b =>
        simp only [compileExpr] at h
        split at h <;>
          (simp only [Option.some.injEq, Except.ok.injEq] at h
           subst h
           simp [esCountExpr, popEmits_emit, OpTrue, OpFalse, OpPop])
      | prefixE op right =>
        simp only [compileExpr] at h
        obtain ⟨c₁, h1, h2⟩ := andThen_ok h
        have hr := ihExpr right c c₁ h1
        split at h2
        · simp only [Option.some.injEq, Except.ok.injEq] at h2
          subst h2
          simp [esCountExpr, popEmits_emit, OpBang, OpPop] at hr ⊢
          omega
        · simp only [Option.some.injEq, Except.ok.injEq] at h2
          subst h2
          simp [esCountExpr, popEmits_emit, OpMinus, OpPop] at hr ⊢
          omega
        · exact absurd h2 (by simp)
      | infixE op left right =>
        simp only [compileExpr] at h
        split at h
        · obtain ⟨c₁, h1, h2⟩ := andThen_ok h
          obtain ⟨c₂, h2a, h2b⟩ := andThen_ok h2
          have hr := ihExpr right c c₁ h1
          have hl := ihExpr left c₁ c₂ h2a
          simp only [Option.some.injEq, Except.ok.injEq] at h2b
          subst h2b
          simp [esCountExpr, popEmits_emit, OpGreaterThan, OpPop] at hr hl ⊢
          omega
        · obtain ⟨c₁, h1, h2⟩ := andThen_ok h
          obtain ⟨c₂, h2a, h2b⟩ := andThen_ok h2
          have hl := ihExpr left c c₁ h1
          have hr := ihExpr right c₁ c₂ h2a
          split at h2b <;>
            first
            | (simp only [Option.some.injEq, Except.ok.injEq] at h2b
               subst h2b
               simp [esCountExpr, popEmits_emit, OpAdd, OpSub, OpMul,
                 OpDiv, OpGreaterThan, OpEqual, OpNotEqual, OpPop] at hl hr ⊢
               omega)
            | exact absurd h2b (by simp)
      | ifE cond consequence alternative =>
        simp only [compileExpr] at h
        obtain ⟨c₁, h1, h2⟩ := andThen_ok h
        have hcond := ihExpr cond c c₁ h1
        obtain ⟨c₂, h2a, h2b⟩ := andThen_ok h2
        have hcons := ihStmts consequence _ c₂ h2a
        rw [popEmits_emit] at hcons
        obtain ⟨c₄, h3, h4⟩ := andThen_ok h2b
        simp only [Option.some.injEq, Except.ok.injEq] at h4
        subst h4
        have hpatch : ∀ cx : Compiler,
            popEmits (((if cx.lastInstructionIs OpPop then cx.removeLastPop else cx).emit
                OpJump [9999]).1.changeOperand
                  (c₁.emit OpJumpNotTruthy [9999]).2
                  ((if cx.lastInstructionIs OpPop then cx.removeLastPop else cx).emit
                    OpJump [9999]).1.currentInstructions.length) = popEmits cx := by
          intro cx
          rw [popEmits_changeOperand, popEmits_emit]
          split <;> simp [popEmits_removeLastPop, OpJump, OpPop]
        cases alternative with
        | none =>
          simp only [Option.some.injEq, Except.ok.injEq] at h3
          subst h3
          rw [popEmits_changeOperand, popEmits_emit, hpatch]
          simp [esCountExpr, OpNull, OpJumpNotTruthy, OpPop] at hcond hcons ⊢
          omega
        | some alt =>
          obtain ⟨c₅, h3a, h3b⟩ := andThen_ok h3
          have halt := ihStmts alt _ c₅ h3a
          rw [hpatch] at halt
          simp only [Option.some.injEq, Except.ok.injEq] at h3b
          subst h3b
          rw [popEmits_changeOperand]
          have hstrip : popEmits (if c₅.lastInstructionIs OpPop then c₅.removeLastPop else c₅) = popEmits c₅ := by
            split <;> rfl
          rw [hstrip]
          simp [esCountExpr, OpJumpNotTruthy, OpPop] at hcond hcons halt ⊢
          omega
      | fnLit name params body =>
        simp only [compileExpr] at h
        obtain ⟨c₁, h1, h2⟩ := andThen_ok h
        have hb := ihStmts body _ c₁ h1
        simp only [Option.some.injEq, Except.ok.injEq] at h2
        subst h2
        have hret : ∀ cx : Compiler,
            popEmits (if (!cx.lastInstructionIs OpReturnValue) = true then
                (cx.emit OpReturn []).1 else cx) = popEmits cx := by
          intro cx
          split
          · rw [popEmits_emit]
            simp [OpReturn, OpPop]
          · rfl
        have hrep : popEmits (if c₁.lastInstructionIs OpPop then
            c₁.replaceLastPopWithReturn else c₁) = popEmits c₁ := by
          split <;> rfl
        rw [popEmits_emit, popEmits_addConstant, popEmits_foldl_loadSymbol,
          popEmits_leaveScope, hret, hrep, hb, popEmits_foldl_define]
        split <;>
          simp [esCountExpr, popEmits, Compiler.enterScope, OpClosure, OpPop]
      | call fn args =>
        simp only [compileExpr] at h
        obtain ⟨c₁, h1, h2⟩ := andThen_ok h
        obtain ⟨c₂, h2a, h2b⟩ := andThen_ok h2
        have hf := ihExpr fn c c₁ h1
        have ha := ihExprs args c₁ c₂ h2a
        simp only [Option.some.injEq, Except.ok.injEq] at h2b
        subst h2b
        simp [esCountExpr, popEmits_emit, OpCall, OpPop] at hf ha ⊢
        omega
      | arrayLit elements =>
        simp only [compileExpr] at h
        obtain ⟨c₁, h1, h2⟩ := andThen_ok h
        have ha := ihExprs elements c c₁ h1
        simp only [Option.some.injEq, Except.ok.injEq] at h2
        subst h2
        simp [esCountExpr, popEmits_emit, OpArray, OpPop] at ha ⊢
        omega
      | hashLit pairs =>
        simp only [compileExpr] at h
        obtain ⟨c₁, h1, h2⟩ := andThen_ok h
        have hp := ihPairs (pairs.insertionSort hashKeyLE) c c₁ h1
        simp only [Option.some.injEq, Except.ok.injEq] at h2
        subst h2
        have := esCountPairs_sorted pairs
        simp only [sortedHashPairs] at this
        simp [esCountExpr, popEmits_emit, OpHash, OpPop] at hp ⊢
        omega
      | indexE left index =>
        simp only [compileExpr] at h
        obtain ⟨c₁, h1, h2⟩ := andThen_ok h
        obtain ⟨c₂, h2a, h2b⟩ := andThen_ok h2
        have hl := ihExpr left c c₁ h1
        have hi := ihExpr index c₁ c₂ h2a
        simp only [Option.some.injEq, Except.ok.injEq] at h2b
        subst h2b
        simp [esCountExpr, popEmits_emit, OpIndex, OpPop] at hl hi ⊢
        omega
    · -- compileExprs
      intro es c c' h
      cases es with
      | nil =>
        simp only [compileExprs, Option.some.injEq, Except.ok.injEq] at h
        subst h
        simp [esCountExprs]
      | cons e rest =>
        simp only [compileExprs] at h
        obtain ⟨c₁, h1, h2⟩ := andThen_ok h
        have := ihExpr e c c₁ h1
        have := ihExprs rest c₁ c' h2
        simp [esCountExprs]
        omega
    · -- compilePairs
      intro ps c c' h
      cases ps with
      | nil =>
        simp only [compilePairs, Option.some.injEq, Except.ok.injEq] at h
        subst h
        simp [esCountPairs]
      | cons p rest =>
        cases p with
        | mk k v =>
          simp only [compilePairs] at h
          obtain ⟨c₁, h1, h2⟩ := andThen_ok h
          obtain ⟨c₂, h2a, h2b⟩ := andThen_ok h2
          have := ihExpr k c c₁ h1
          have := ihExpr v c₁ c₂ h2a
          have := ihPairs rest c₂ c' h2b
          simp [esCountPairs]
          omega

/-- C6: compiling an ExpressionStatement compiles its expression and then
emits OpPop, and this is the only compilation case that emits OpPop: on
every successful compilation the number of OpPop emissions recorded in
the ghost log equals the number of ExpressionStatement nodes of the
compiled fragment — so the IfExpression and FunctionLiteral cases, which
remove or replace a trailing OpPop, never emit one, and neither does any
other case. -/
theorem oppop_only_from_expression_statements :
    (∀ fuel e c, compileStmt (fuel + 1) (.exprS e) c =
      andThen (compileExpr fuel e c)
        (fun c => some (.ok (c.emit OpPop []).1))) ∧
    (∀ fuel s c c', compileStmt fuel s c = some (.ok c') →
      popEmits c' = popEmits c + esCountStmt s) ∧
    (∀ fuel e c c', compileExpr fuel e c = some (.ok c') →
      popEmits c' = popEmits c + esCountExpr e) ∧
    (∀ fuel stmts c c', compileStmts fuel stmts c = some (.ok c') →
      popEmits c' = popEmits c + esCountStmts stmts) :=
  ⟨fun _ _ _ => rfl,
   fun fuel => (popEmits_compile fuel).2.1,
   fun fuel => (popEmits_compile fuel).2.2.1,
   fun fuel => (popEmits_compile fuel).1⟩

/-- C6 (witness): compiling the expression statement `1;` records exactly
one OpPop emission. -/
theorem oppop_only_from_expression_statements_witness :
    popEmits ((((newCompiler.addConstant (.intO 1)).1.emit OpConstant
        [0]).1.emit OpPop []).1) =
      popEmits newCompiler + esCountStmt (.exprS (.intLit 1)) :=
  oppop_only_from_expression_statements.2.1 5 (.exprS (.intLit 1))
    newCompiler _ rfl

/-! ## Parser (`parser` package)

The parser consumes the token stream produced by the lexer.  `Token`
mirrors the `token` package (type and literal); the token-type constants
are the string values of the `token` package.  The parser state carries
`curToken`, `peekToken` and the remaining stream (the lexer yields EOF
tokens forever once the input is exhausted); `errors` is the parser's
error list. -/

structure Token where
  type : String
  literal : String
deriving Repr, DecidableEq

def eofToken : Token := ⟨"EOF", ""⟩

structure PState where
  curToken : Token
  peekToken : Token
  rest : List Token
  errors : List String
deriving Repr, DecidableEq

/-- `nextToken` from the source: shift `peekToken` into `curToken` and
pull the next token from the lexer. -/
def PState.nextToken (p : PState) : PState :=
  { p with
    curToken := p.peekToken
    peekToken := p.rest.headD eofToken
    rest := p.rest.tail }

def PState.curTokenIs (p : PState) (t : String) : Bool :=
  p.curToken.type == t

def PState.peekTokenIs (p : PState) (t : String) : Bool :=
  p.peekToken.type == t

/-- `peekError` from the source. -/
def PState.peekError (p : PState) (t : String) : PState :=
  { p with errors := p.errors ++
      ["expected next token to be " ++ t ++ ", got " ++
        p.peekToken.type ++ " instead"] }

/-- `expectPeek` from the source: advance on a peek match, record an
error otherwise. -/
def PState.expectPeek (p : PState) (t : String) : Bool × PState :=
  if p.peekTokenIs t then (true, p.nextToken)
  else (false, p.peekError t)

/-- `noPrefixParseFnError` from the source. -/
def PState.noPrefixParseFnError (p : PState) (t : String) : PState :=
  { p with errors := p.errors ++
      ["no prefix parse function for " ++ t ++ " found"] }

/-- The `precedences` map of the source with the `LOWEST` default used by
`peekPrecedence`/`curPrecedence` (LOWEST=1, EQUALS=2, LESSGREATER=3,
SUM=4, PRODUCT=5, PREFIX=6, CALL=7, INDEX=8). -/
def tokenPrecedence (t : String) : Nat :=
  match t with
  | "==" => 2
  | "!=" => 2
  | "<" => 3
  | ">" => 3
  | "+" => 4
  | "-" => 4
  | "/" => 5
  | "*" => 5
  | "(" => 7
  | "[" => 8
  | _ => 1

def PState.peekPrecedence (p : PState) : Nat :=
  tokenPrecedence p.peekToken.type

def PState.curPrecedence (p : PState) : Nat :=
  tokenPrecedence p.curToken.type

/-- `New(lexer)`: the parser reads two tokens so that `curToken` and
`peekToken` are both set. -/
def initPState (toks : List Token) : PState :=
  { curToken := toks.headD eofToken
    peekToken := toks.tail.headD eofToken
    rest := toks.tail.tail
    errors := [] }

/-- `parseIdentifier` from the source (does not advance the position). -/
def parseIdentifier (p : PState) : Expr × PState :=
  (.ident p.curToken.literal, p)

/-- `parseBoolean` from the source. -/
def parseBoolean (p : PState) : Expr × PState :=
  (.boolLit (p.curTokenIs "TRUE"), p)

/-- `parseStringLiteral` from the source. -/
def parseStringLiteral (p : PState) : Expr × PState :=
  (.strLit p.curToken.literal, p)

/-- Decimal digit-run parsing; `none` on a non-digit or the empty
string. -/
def digitsToNat? : List Char → Nat → Option Nat
  | [], acc => some acc
  | c :: cs, acc =>
    if c.isDigit then digitsToNat? cs (acc * 10 + (c.toNat - 48))
    else none

/-- The integer parse used by `parseIntegerLiteral`.  Go uses
`strconv.ParseInt(literal, 0, 64)`; the lexer only produces non-empty
runs of decimal digits, modelled with decimal parsing (base-0 prefixes
such as a leading 0 for octal, sign characters, and the 64-bit range
check are not modelled). -/
def strToInt? (s : String) : Option Int :=
  match s.data with
  | [] => none
  | cs => (digitsToNat? cs 0).map Int.ofNat

/-- `parseIntegerLiteral` from the source. -/
def parseIntegerLiteral (p : PState) : Expr × PState :=
  match strToInt? p.curToken.literal with
  | some v => (.intLit v, p)
  | none => (.nilE, { p with errors := p.errors ++
      ["could not parse " ++ p.curToken.literal ++ " as integer"] })

/-- The token types with a registered prefix parse function. -/
def hasPrefixFn : String → Bool
  | "IDENT" | "INT" | "TRUE" | "FALSE" | "STRING" | "!" | "-" | "("
  | "IF" | "FUNCTION" | "[" | "\x7b" => true
  | _ => false

/-- The token types with a registered infix parse function. -/
def hasInfixFn : String → Bool
  | "+" | "-" | "/" | "*" | "==" | "!=" | "<" | ">" | "(" | "[" => true
  | _ => false

mutual
/-- `parseExpression` from the source: dispatch on the registered prefix
parse function (recording an error and returning nil when none is
registered), then run the precedence-climbing loop. -/
def parseExpression (fuel : Nat) (precedence : Nat) (p : PState) :
    Option (Expr × PState) :=
  match fuel with
  | 0 => none
  | fuel + 1 =>
    if hasPrefixFn p.curToken.type then
      match callPrefixFn fuel p with
      | none => none
      | some (leftExp, p) => parseExpressionLoop fuel precedence leftExp p
    else
      some (.nilE, p.noPrefixParseFnError p.curToken.type)

/-- The `for !p.peekTokenIs(SEMICOLON) && precedence < p.peekPrecedence()`
loop of `parseExpression`. -/
def parseExpressionLoop (fuel : Nat) (precedence : Nat) (leftExp : Expr)
    (p : PState) : Option (Expr × PState) :=
  match fuel with
  | 0 => none
  | fuel + 1 =>
    if !(p.peekTokenIs ";") && precedence < p.peekPrecedence then
      if hasInfixFn p.peekToken.type then
        match callInfixFn fuel leftExp p.nextToken with
        | none => none
        | some (leftExp, p) => parseExpressionLoop fuel precedence leftExp p
      else
        some (leftExp, p)
    else
      some (leftExp, p)

/-- The prefix-parse-function registrations of `New`. -/
def callPrefixFn (fuel : Nat) (p : PState) : Option (Expr × PState) :=
  match fuel with
  | 0 => none
  | fuel + 1 =>
    match p.curToken.type with
    | "IDENT" => some (parseIdentifier p)
    | "INT" => some (parseIntegerLiteral p)
    | "TRUE" => some (parseBoolean p)
    | "FALSE" => some (parseBoolean p)
    | "STRING" => some (parseStringLiteral p)
    | "!" => parsePrefixExpression fuel p
    | "-" => parsePrefixExpression fuel p
    | "(" => parseGroupedExpression fuel p
    | "IF" => parseIfExpression fuel p
    | "FUNCTION" => parseFunctionLiteral fuel p
    | "[" => parseArrayLiteral fuel p
    | "\x7b" => parseHashLiteral fuel p
    | _ => some (.nilE, p)

/-- The infix-parse-function registrations of `New` (the caller has
checked `hasInfixFn`; the catch-all arm is unreachable). -/
def callInfixFn (fuel : Nat) (left : Expr) (p : PState) :
    Option (Expr × PState) :=
  match fuel with
  | 0 => none
  | fuel + 1 =>
    match p.curToken.type with
    | "(" => parseCallExpression fuel left p
    | "[" => parseIndexExpression fuel left p
    | _ => parseInfixExpression fuel left p

/-- `parseInfixExpression` from the source. -/
def parseInfixExpression (fuel : Nat) (left : Expr) (p : PState) :
    Option (Expr × PState) :=
  match fuel with
  | 0 => none
  | fuel + 1 =>
    let op := p.curToken.literal
    let precedence := p.curPrecedence
    match parseExpression fuel precedence p.nextToken with
    | none => none
    | some (right, p) => some (.infixE op left right, p)

/-- `parsePrefixExpression` from the source (right side parsed at PREFIX
precedence, 6). -/
def parsePrefixExpression (fuel : Nat) (p : PState) :
    Option (Expr × PState) :=
  match fuel with
  | 0 => none
  | fuel + 1 =>
    let op := p.curToken.literal
    match parseExpression fuel 6 p.nextToken with
    | none => none
    | some (right, p) => some (.prefixE op right, p)

/-- `parseGroupedExpression` from the source. -/
def parseGroupedExpression (fuel : Nat) (p : PState) :
    Option (Expr × PState) :=
  match fuel with
  | 0 => none
  | fuel + 1 =>
    match parseExpression fuel 1 p.nextToken with
    | none => none
    | some (exp, p) =>
      let q := p.expectPeek ")"
      if q.1 then some (exp, q.2) else some (.nilE, q.2)

/-- `parseIfExpression` from the source. -/
def parseIfExpression (fuel : Nat) (p : PState) :
    Option (Expr × PState) :=
  match fuel with
  | 0 => none
  | fuel + 1 =>
    let q := p.expectPeek "("
    if !q.1 then some (.nilE, q.2) else
    match parseExpression fuel 1 q.2.nextToken with
    | none => none
    | some (cond, p) =>
      let q := p.expectPeek ")"
      if !q.1 then some (.nilE, q.2) else
      let q2 := q.2.expectPeek "\x7b"
      if !q2.1 then some (.nilE, q2.2) else
      match parseBlockStatement fuel q2.2 with
      | none => none
      | some (consequence, p) =>
        if p.peekTokenIs "ELSE" then
          let q := p.nextToken.expectPeek "\x7b"
          if !q.1 then some (.nilE, q.2) else
          match parseBlockStatement fuel q.2 with
          | none => none
          | some (alt, p) => some (.ifE cond consequence (some alt), p)
        else
          some (.ifE cond consequence none, p)

/-- `parseBlockStatement` from the source: advance past the brace, then
collect statements until a closing brace or EOF. -/
def parseBlockStatement (fuel : Nat) (p : PState) :
    Option (List Stmt × PState) :=
  match fuel with
  | 0 => none
  | fuel + 1 => parseBlockLoop fuel p.nextToken

/-- The statement loop of `parseBlockStatement`. -/
def parseBlockLoop (fuel : Nat) (p : PState) :
    Option (List Stmt × PState) :=
  match fuel with
  | 0 => none
  | fuel + 1 =>
    if !(p.curTokenIs "\x7d") && !(p.curTokenIs "EOF") then
      match parseStatement fuel p with
      | none => none
      | some (stmt, p) =>
        match parseBlockLoop fuel p.nextToken with
        | none => none
        | some (rest, p) => some (stmt :: rest, p)
    else
      some ([], p)

/-- `parseFunctionLiteral` from the source: the literal's Name field is
the Go zero value, the empty string. -/
def parseFunctionLiteral (fuel : Nat) (p : PState) :
    Option (Expr × PState) :=
  match fuel with
  | 0 => none
  | fuel + 1 =>
    let q := p.expectPeek "("
    if !q.1 then some (.nilE, q.2) else
    match parseFunctionParameters fuel q.2 with
    | none => none
    | some (params, p) =>
      let q := p.expectPeek "\x7b"
      if !q.1 then some (.nilE, q.2) else
      match parseBlockStatement fuel q.2 with
      | none => none
      | some (body, p) => some (.fnLit "" params body, p)

/-- `parseFunctionParameters` from the source (a nil slice on failure is
modelled as the empty list). -/
def parseFunctionParameters (fuel : Nat) (p : PState) :
    Option (List String × PState) :=
  match fuel with
  | 0 => none
  | fuel + 1 =>
    if p.peekTokenIs ")" then some ([], p.nextToken)
    else
      let p := p.nextToken
      let first := p.curToken.literal
      match parseParamsLoop fuel p with
      | none => none
      | some (others, p) =>
        let q := p.expectPeek ")"
        if q.1 then some (first :: others, q.2) else some ([], q.2)

/-- The comma loop of `parseFunctionParameters`. -/
def parseParamsLoop (fuel : Nat) (p : PState) :
    Option (List String × PState) :=
  match fuel with
  | 0 => none
  | fuel + 1 =>
    if p.peekTokenIs "," then
      let p := p.nextToken.nextToken
      match parseParamsLoop fuel p with
      | none => none
      | some (rest, p') => some (p.curToken.literal :: rest, p')
    else
      some ([], p)

/-- `parseArrayLiteral` from the source. -/
def parseArrayLiteral (fuel : Nat) (p : PState) :
    Option (Expr × PState) :=
  match fuel with
  | 0 => none
  | fuel + 1 =>
    match parseExpressionList fuel "]" p with
    | none => none
    | some (elems, p) => some (.arrayLit elems, p)

/-- `parseExpressionList` from the source (nil slice on failure modelled
as the empty list). -/
def parseExpressionList (fuel : Nat) (endTok : String) (p : PState) :
    Option (List Expr × PState) :=
  match fuel with
  | 0 => none
  | fuel + 1 =>
    if p.peekTokenIs endTok then some ([], p.nextToken)
    else
      match parseExpression fuel 1 p.nextToken with
      | none => none
      | some (first, p) =>
        match parseExprListLoop fuel p with
        | none => none
        | some (rest, p) =>
          let q := p.expectPeek endTok
          if q.1 then some (first :: rest, q.2) else some ([], q.2)

/-- The comma loop of `parseExpressionList`. -/
def parseExprListLoop (fuel : Nat) (p : PState) :
    Option (List Expr × PState) :=
  match fuel with
  | 0 => none
  | fuel + 1 =>
    if p.peekTokenIs "," then
      match parseExpression fuel 1 p.nextToken.nextToken with
      | none => none
      | some (e, p) =>
        match parseExprListLoop fuel p with
        | none => none
        | some (rest, p) => some (e :: rest, p)
    else
      some ([], p)

/-- `parseCallExpression` from the source. -/
def parseCallExpression (fuel : Nat) (function : Expr) (p : PState) :
    Option (Expr × PState) :=
  match fuel with
  | 0 => none
  | fuel + 1 =>
    match parseExpressionList fuel ")" p with
    | none => none
    | some (args, p) => some (.call function args, p)

/-- `parseIndexExpression` from the source. -/
def parseIndexExpression (fuel : Nat) (left : Expr) (p : PState) :
    Option (Expr × PState) :=
  match fuel with
  | 0 => none
  | fuel + 1 =>
    match parseExpression fuel 1 p.nextToken with
    | none => none
    | some (idx, p) =>
      let q := p.expectPeek "]"
      if q.1 then some (.indexE left idx, q.2) else some (.nilE, q.2)

/-- `parseHashLiteral` from the source: the pair loop, then the closing
brace. -/
def parseHashLiteral (fuel : Nat) (p : PState) :
    Option (Expr × PState) :=
  match fuel with
  | 0 => none
  | fuel + 1 =>
    match parseHashLoop fuel p with
    | none => none
    | some (none, p) => some (.nilE, p)
    | some (some pairs, p) =>
      let q := p.expectPeek "\x7d"
      if q.1 then some (.hashLit pairs, q.2) else some (.nilE, q.2)

/-- The pair loop of `parseHashLiteral`; the inner `Option` is the Go nil
returned when a COLON or COMMA is missing. -/
def parseHashLoop (fuel : Nat) (p : PState) :
    Option (Option (List (Expr × Expr)) × PState) :=
  match fuel with
  | 0 => none
  | fuel + 1 =>
    if !(p.peekTokenIs "\x7d") then
      match parseExpression fuel 1 p.nextToken with
      | none => none
      | some (key, p) =>
        let q := p.expectPeek ":"
        if !q.1 then some (none, q.2) else
        match parseExpression fuel 1 q.2.nextToken with
        | none => none
        | some (value, p) =>
          if !(p.peekTokenIs "\x7d") then
            let q := p.expectPeek ","
            if !q.1 then some (none, q.2) else
            match parseHashLoop fuel q.2 with
            | none => none
            | some (none, p) => some (none, p)
            | some (some rest, p) => some (some ((key, value) :: rest), p)
          else
            match parseHashLoop fuel p with
            | none => none
            | some (none, p) => some (none, p)
            | some (some rest, p) => some (some ((key, value) :: rest), p)
    else
      some (some [], p)

/-- `parseLetStatement` from the source: on success, when the parsed
value is a FunctionLiteral its Name field is set to the let target's
name.  A nil return (malformed let) is `nilS`. -/
def parseLetStatement (fuel : Nat) (p : PState) :
    Option (Stmt × PState) :=
  match fuel with
  | 0 => none
  | fuel + 1 =>
    let q := p.expectPeek "IDENT"
    if !q.1 then some (.nilS, q.2) else
    let name := q.2.curToken.literal
    let q2 := q.2.expectPeek "="
    if !q2.1 then some (.nilS, q2.2) else
    match parseExpression fuel 1 q2.2.nextToken with
    | none => none
    | some (value, p) =>
      let value := match value with
        | .fnLit _ ps body => Expr.fnLit name ps body
        | v => v
      let p := if p.peekTokenIs ";" then p.nextToken else p
      some (.letS name value, p)

/-- `parseReturnStatement` from the source. -/
def parseReturnStatement (fuel : Nat) (p : PState) :
    Option (Stmt × PState) :=
  match fuel with
  | 0 => none
  | fuel + 1 =>
    match parseExpression fuel 1 p.nextToken with
    | none => none
    | some (v, p) =>
      let p := if p.peekTokenIs ";" then p.nextToken else p
      some (.returnS v, p)

/-- `parseExpressionStatement` from the source. -/
def parseExpressionStatement (fuel : Nat) (p : PState) :
    Option (Stmt × PState) :=
  match fuel with
  | 0 => none
  | fuel + 1 =>
    match parseExpression fuel 1 p with
    | none => none
    | some (e, p) =>
      let p := if p.peekTokenIs ";" then p.nextToken else p
      some (.exprS e, p)

/-- `parseStatement` from the source. -/
def parseStatement (fuel : Nat) (p : PState) : Option (Stmt × PState) :=
  match fuel with
  | 0 => none
  | fuel + 1 =>
    match p.curToken.type with
    | "LET" => parseLetStatement fuel p
    | "RETURN" => parseReturnStatement fuel p
    | _ => parseExpressionStatement fuel p

/-- `ParseProgram` from the source.  (The `stmt != nil` guard always
holds: every branch of `parseStatement` returns a typed pointer, which is
a non-nil interface value even when the pointer itself is nil, so a
malformed let statement is appended as a nil statement.) -/
def parseProgram (fuel : Nat) (p : PState) :
    Option (List Stmt × PState) :=
  match fuel with
  | 0 => none
  | fuel + 1 =>
    if !(p.curTokenIs "EOF") then
      match parseStatement fuel p with
      | none => none
      | some (stmt, p) =>
        match parseProgram fuel p.nextToken with
        | none => none
        | some (rest, p) => some (stmt :: rest, p)
    else
      some ([], p)
end

/-! ## The function-literal naming invariant (C8)

`stmtNamesOK` / `exprNamesOK` state the claim: a FunctionLiteral that is
the right-hand-side value of a let statement carries that let target's
(non-empty) name, and a function literal in any other position carries
the empty name. -/

mutual
def exprNamesOK : Expr → Bool
  | .nilE => true
  | .ident _ => true
  | .intLit _ => true
  | .strLit _ => true
  | .boolLit _ => true
  | .prefixE _ r => exprNamesOK r
  | .infixE _ l r => exprNamesOK l && exprNamesOK r
  | .ifE c cons alt =>
      exprNamesOK c && stmtsNamesOK cons &&
        (match alt with
         | some a => stmtsNamesOK a
         | none => true)
  | .fnLit name _ body => name == "" && stmtsNamesOK body
  | .call f args => exprNamesOK f && exprsNamesOK args
  | .arrayLit es => exprsNamesOK es
  | .hashLit ps => pairsNamesOK ps
  | .indexE l i => exprNamesOK l && exprNamesOK i

def stmtNamesOK : Stmt → Bool
  | .nilS => true
  | .letS n (.fnLit name _ body) =>
      name == n && name != "" && stmtsNamesOK body
  | .letS _ v => exprNamesOK v
  | .returnS v => exprNamesOK v
  | .exprS e => exprNamesOK e

def stmtsNamesOK : List Stmt → Bool
  | [] => true
  | s :: rest => stmtNamesOK s && stmtsNamesOK rest

def exprsNamesOK : List Expr → Bool
  | [] => true
  | e :: rest => exprNamesOK e && exprsNamesOK rest

def pairsNamesOK : List (Expr × Expr) → Bool
  | [] => true
  | (k, v) :: rest => exprNamesOK k && exprNamesOK v && pairsNamesOK rest
end

/-- Well-formedness of a token: an IDENT token has a non-empty literal.
The lexer guarantees this: `readIdentifier` only returns non-empty runs
of letters. -/
def tokOK (t : Token) : Bool :=
  t.type != "IDENT" || t.literal != ""

/-- All tokens still to be consumed are well formed. -/
def PState.tokensOK (p : PState) : Bool :=
  tokOK p.curToken && tokOK p.peekToken && p.rest.all tokOK

lemma tokensOK_nextToken {p : PState} (h : p.tokensOK) :
    p.nextToken.tokensOK := by
  simp only [PState.tokensOK, PState.nextToken, Bool.and_eq_true] at h ⊢
  refine ⟨⟨h.1.2, ?_⟩, ?_⟩
  · cases hr : p.rest with
    | nil => simp [hr, tokOK, eofToken]
    | cons t ts =>
      have hall := h.2
      rw [hr] at hall
      simp only [List.all_cons, Bool.and_eq_true] at hall
      simpa [hr] using hall.1
  · cases hr : p.rest with
    | nil => simp [hr]
    | cons t ts =>
      have hall := h.2
      rw [hr] at hall
      simp only [List.all_cons, Bool.and_eq_true] at hall
      simpa [hr] using hall.2

lemma tokensOK_peekError {p : PState} (h : p.tokensOK) (t : String) :
    (p.peekError t).tokensOK := h

lemma tokensOK_noPrefixParseFnError {p : PState} (h : p.tokensOK)
    (t : String) : (p.noPrefixParseFnError t).tokensOK := h

lemma tokensOK_expectPeek {p : PState} (h : p.tokensOK) (t : String) :
    ((p.expectPeek t).2).tokensOK := by
  simp only [PState.expectPeek]
  split
  · exact tokensOK_nextToken h
  · exact h

lemma expectPeek_true {p : PState} {t : String}
    (h : (p.expectPeek t).1 = true) :
    (p.expectPeek t).2.curToken = p.peekToken ∧
      p.peekToken.type = t := by
  by_cases hp : p.peekTokenIs t = true
  · refine ⟨by simp [PState.expectPeek, hp, PState.nextToken], ?_⟩
    simpa [PState.peekTokenIs] using hp
  · exfalso
    simp [PState.expectPeek, hp] at h



lemma tokensOK_semiSkip {p : PState} (h : p.tokensOK) :
    (if p.peekTokenIs ";" = true then p.nextToken else p).tokensOK := by
  split
  · exact tokensOK_nextToken h
  · exact h

lemma namesOK_parse : ∀ fuel : Nat,
    (∀ prec p e p', parseExpression fuel prec p = some (e, p') →
      p.tokensOK → exprNamesOK e ∧ p'.tokensOK) ∧
    (∀ prec left p e p',
      parseExpressionLoop fuel prec left p = some (e, p') →
      p.tokensOK → exprNamesOK left → exprNamesOK e ∧ p'.tokensOK) ∧
    (∀ p e p', callPrefixFn fuel p = some (e, p') →
      p.tokensOK → exprNamesOK e ∧ p'.tokensOK) ∧
    (∀ left p e p', callInfixFn fuel left p = some (e, p') →
      p.tokensOK → exprNamesOK left → exprNamesOK e ∧ p'.tokensOK) ∧
    (∀ left p e p', parseInfixExpression fuel left p = some (e, p') →
      p.tokensOK → exprNamesOK left → exprNamesOK e ∧ p'.tokensOK) ∧
    (∀ p e p', parsePrefixExpression fuel p = some (e, p') →
      p.tokensOK → exprNamesOK e ∧ p'.tokensOK) ∧
    (∀ p e p', parseGroupedExpression fuel p = some (e, p') →
      p.tokensOK → exprNamesOK e ∧ p'.tokensOK) ∧
    (∀ p e p', parseIfExpression fuel p = some (e, p') →
      p.tokensOK → exprNamesOK e ∧ p'.tokensOK) ∧
    (∀ p ss p', parseBlockStatement fuel p = some (ss, p') →
      p.tokensOK → stmtsNamesOK ss ∧ p'.tokensOK) ∧
    (∀ p ss p', parseBlockLoop fuel p = some (ss, p') →
      p.tokensOK → stmtsNamesOK ss ∧ p'.tokensOK) ∧
    (∀ p e p', parseFunctionLiteral fuel p = some (e, p') →
      p.tokensOK → exprNamesOK e ∧ p'.tokensOK) ∧
    (∀ p xs p', parseFunctionParameters fuel p = some (xs, p') →
      p.tokensOK → p'.tokensOK) ∧
    (∀ p xs p', parseParamsLoop fuel p = some (xs, p') →
      p.tokensOK → p'.tokensOK) ∧
    (∀ p e p', parseArrayLiteral fuel p = some (e, p') →
      p.tokensOK → exprNamesOK e ∧ p'.tokensOK) ∧
    (∀ endTok p es p', parseExpressionList fuel endTok p = some (es, p') →
      p.tokensOK → exprsNamesOK es ∧ p'.tokensOK) ∧
    (∀ p es p', parseExprListLoop fuel p = some (es, p') →
      p.tokensOK → exprsNamesOK es ∧ p'.tokensOK) ∧
    (∀ left p e p', parseCallExpression fuel left p = some (e, p') →
      p.tokensOK → exprNamesOK left → exprNamesOK e ∧ p'.tokensOK) ∧
    (∀ left p e p', parseIndexExpression fuel left p = some (e, p') →
      p.tokensOK → exprNamesOK left → exprNamesOK e ∧ p'.tokensOK) ∧
    (∀ p e p', parseHashLiteral fuel p = some (e, p') →
      p.tokensOK → exprNamesOK e ∧ p'.tokensOK) ∧
    (∀ p r p', parseHashLoop fuel p = some (r, p') →
      p.tokensOK →
      (∀ ps, r = some ps → pairsNamesOK ps = true) ∧ p'.tokensOK) ∧
    (∀ p s p', parseLetStatement fuel p = some (s, p') →
      p.tokensOK → stmtNamesOK s ∧ p'.tokensOK) ∧
    (∀ p s p', parseReturnStatement fuel p = some (s, p') →
      p.tokensOK → stmtNamesOK s ∧ p'.tokensOK) ∧
    (∀ p s p', parseExpressionStatement fuel p = some (s, p') →
      p.tokensOK → stmtNamesOK s ∧ p'.tokensOK) ∧
    (∀ p s p', parseStatement fuel p = some (s, p') →
      p.tokensOK → stmtNamesOK s ∧ p'.tokensOK) ∧
    (∀ p ss p', parseProgram fuel p = some (ss, p') →
      p.tokensOK → stmtsNamesOK ss ∧ p'.tokensOK) := by
  intro fuel
  induction fuel with
  | zero =>
    refine ⟨?_, ?_, ?_, ?_, ?_, ?_, ?_, ?_, ?_, ?_, ?_, ?_, ?_, ?_, ?_,
      ?_, ?_, ?_, ?_, ?_, ?_, ?_, ?_, ?_, ?_⟩ <;>
      intros <;> simp_all [parseExpression, parseExpressionLoop,
        callPrefixFn, callInfixFn, parseInfixExpression,
        parsePrefixExpression, parseGroupedExpression, parseIfExpression,
        parseBlockStatement, parseBlockLoop, parseFunctionLiteral,
        parseFunctionParameters, parseParamsLoop, parseArrayLiteral,
        parseExpressionList, parseExprListLoop, parseCallExpression,
        parseIndexExpression, parseHashLiteral, parseHashLoop,
        parseLetStatement, parseReturnStatement, parseExpressionStatement,
        parseStatement, parseProgram]
  | succ n ih =>
    obtain ⟨ihExpr, ihLoop, ihPrefixDispatch, ihInfixDispatch, ihInfix,
      ihPre, ihGroup, ihIf, ihBlock, ihBlockLoop, ihFn, ihParams,
      ihParamsLoop, ihArray, ihList, ihListLoop, ihCall, ihIndex, ihHash,
      ihHashLoop, ihLet, ihRet, ihExprStmt, ihStmt, ihProg⟩ := ih
    refine ⟨?_, ?_, ?_, ?_, ?_, ?_, ?_, ?_, ?_, ?_, ?_, ?_, ?_, ?_, ?_,
      ?_, ?_, ?_, ?_, ?_, ?_, ?_, ?_, ?_, ?_⟩
    · -- parseExpression
      intro prec p e p' h hOK
      simp only [parseExpression] at h
      split at h
      · cases hc : callPrefixFn n p with
        | none => rw [hc] at h; exact absurd h (by simp)
        | some lp =>
          obtain ⟨l, p₁⟩ := lp
          rw [hc] at h
          simp only at h
          obtain ⟨hl, hp₁⟩ := ihPrefixDispatch p l p₁ hc hOK
          exact ihLoop prec l p₁ e p' h hp₁ hl
      · simp only [Option.some.injEq, Prod.mk.injEq] at h
        obtain ⟨he, hp⟩ := h
        subst he; subst hp
        exact ⟨rfl, hOK⟩
    · -- parseExpressionLoop
      intro prec left p e p' h hOK hleft
      simp only [parseExpressionLoop] at h
      split at h
      · split at h
        · cases hc : callInfixFn n left p.nextToken with
          | none => rw [hc] at h; exact absurd h (by simp)
          | some lp =>
            obtain ⟨l₂, p₁⟩ := lp
            rw [hc] at h
            simp only at h
            obtain ⟨hl₂, hp₁⟩ := ihInfixDispatch left p.nextToken l₂ p₁ hc
              (tokensOK_nextToken hOK) hleft
            exact ihLoop prec l₂ p₁ e p' h hp₁ hl₂
        · simp only [Option.some.injEq, Prod.mk.injEq] at h
          obtain ⟨he, hp⟩ := h
          subst he; subst hp
          exact ⟨hleft, hOK⟩
      · simp only [Option.some.injEq, Prod.mk.injEq] at h
        obtain ⟨he, hp⟩ := h
        subst he; subst hp
        exact ⟨hleft, hOK⟩
    · -- callPrefixFn
      intro p e p' h hOK
      simp only [callPrefixFn] at h
      split at h
      · -- IDENT
        simp only [parseIdentifier, Option.some.injEq, Prod.mk.injEq] at h
        obtain ⟨he, hp⟩ := h
        subst he; subst hp
        exact ⟨rfl, hOK⟩
      · -- INT
        simp only [parseIntegerLiteral] at h
        split at h
        · simp only [Option.some.injEq, Prod.mk.injEq] at h
          obtain ⟨he, hp⟩ := h
          subst he; subst hp
          exact ⟨rfl, hOK⟩
        · simp only [Option.some.injEq, Prod.mk.injEq] at h
          obtain ⟨he, hp⟩ := h
          subst he; subst hp
          exact ⟨rfl, hOK⟩
      · -- TRUE
        simp only [parseBoolean, Option.some.injEq, Prod.mk.injEq] at h
        obtain ⟨he, hp⟩ := h
        subst he; subst hp
        exact ⟨rfl, hOK⟩
      · -- FALSE
        simp only [parseBoolean, Option.some.injEq, Prod.mk.injEq] at h
        obtain ⟨he, hp⟩ := h
        subst he; subst hp
        exact ⟨rfl, hOK⟩
      · -- STRING
        simp only [parseStringLiteral, Option.some.injEq, Prod.mk.injEq] at h
        obtain ⟨he, hp⟩ := h
        subst he; subst hp
        exact ⟨rfl, hOK⟩
      · exact ihPre p e p' h hOK
      · exact ihPre p e p' h hOK
      · exact ihGroup p e p' h hOK
      · exact ihIf p e p' h hOK
      · exact ihFn p e p' h hOK
      · exact ihArray p e p' h hOK
      · exact ihHash p e p' h hOK
      · simp only [Option.some.injEq, Prod.mk.injEq] at h
        obtain ⟨he, hp⟩ := h
        subst he; subst hp
        exact ⟨rfl, hOK⟩
    · -- callInfixFn
      intro left p e p' h hOK hleft
      simp only [callInfixFn] at h
      split at h
      · exact ihCall left p e p' h hOK hleft
      · exact ihIndex left p e p' h hOK hleft
      · exact ihInfix left p e p' h hOK hleft
    · -- parseInfixExpression
      intro left p e p' h hOK hleft
      simp only [parseInfixExpression] at h
      cases hc : parseExpression n p.curPrecedence p.nextToken with
      | none => rw [hc] at h; exact absurd h (by simp)
      | some rp =>
        obtain ⟨right, p₁⟩ := rp
        rw [hc] at h
        simp only at h
        simp only [Option.some.injEq, Prod.mk.injEq] at h
        obtain ⟨he, hp⟩ := h
        subst he; subst hp
        obtain ⟨hr, hp₁⟩ := ihExpr _ _ _ _ hc (tokensOK_nextToken hOK)
        exact ⟨by simp [exprNamesOK, hleft, hr], hp₁⟩
    · -- parsePrefixExpression
      intro p e p' h hOK
      simp only [parsePrefixExpression] at h
      cases hc : parseExpression n 6 p.nextToken with
      | none => rw [hc] at h; exact absurd h (by simp)
      | some rp =>
        obtain ⟨right, p₁⟩ := rp
        rw [hc] at h
        simp only at h
        simp only [Option.some.injEq, Prod.mk.injEq] at h
        obtain ⟨he, hp⟩ := h
        subst he; subst hp
        obtain ⟨hr, hp₁⟩ := ihExpr _ _ _ _ hc (tokensOK_nextToken hOK)
        exact ⟨by simp [exprNamesOK, hr], hp₁⟩
    · -- parseGroupedExpression
      intro p e p' h hOK
      simp only [parseGroupedExpression] at h
      cases hc : parseExpression n 1 p.nextToken with
      | none => rw [hc] at h; exact absurd h (by simp)
      | some rp =>
        obtain ⟨exp, p₁⟩ := rp
        rw [hc] at h
        simp only at h
        obtain ⟨hexp, hp₁⟩ := ihExpr _ _ _ _ hc (tokensOK_nextToken hOK)
        split at h
        · simp only [Option.some.injEq, Prod.mk.injEq] at h
          obtain ⟨he, hp⟩ := h
          subst he; subst hp
          exact ⟨hexp, tokensOK_expectPeek hp₁ _⟩
        · simp only [Option.some.injEq, Prod.mk.injEq] at h
          obtain ⟨he, hp⟩ := h
          subst he; subst hp
          exact ⟨rfl, tokensOK_expectPeek hp₁ _⟩
    · -- parseIfExpression
      intro p e p' h hOK
      simp only [parseIfExpression] at h
      split at h
      · simp only [Option.some.injEq, Prod.mk.injEq] at h
        obtain ⟨he, hp⟩ := h
        subst he; subst hp
        exact ⟨rfl, tokensOK_expectPeek hOK _⟩
      · cases hc : parseExpression n 1 ((p.expectPeek "(").2.nextToken) with
        | none => rw [hc] at h; exact absurd h (by simp)
        | some rp =>
          obtain ⟨cond, p₁⟩ := rp
          rw [hc] at h
          simp only at h
          obtain ⟨hcond, hp₁⟩ := ihExpr _ _ _ _ hc
            (tokensOK_nextToken (tokensOK_expectPeek hOK _))
          split at h
          · simp only [Option.some.injEq, Prod.mk.injEq] at h
            obtain ⟨he, hp⟩ := h
            subst he; subst hp
            exact ⟨rfl, tokensOK_expectPeek hp₁ _⟩
          · split at h
            · simp only [Option.some.injEq, Prod.mk.injEq] at h
              obtain ⟨he, hp⟩ := h
              subst he; subst hp
              exact ⟨rfl, tokensOK_expectPeek (tokensOK_expectPeek hp₁ _) _⟩
            · cases hb : parseBlockStatement n
                (((p₁.expectPeek ")").2.expectPeek "\x7b").2) with
              | none => rw [hb] at h; exact absurd h (by simp)
              | some bp =>
                obtain ⟨consequence, p₂⟩ := bp
                rw [hb] at h
                simp only at h
                obtain ⟨hcons, hp₂⟩ := ihBlock _ _ _ hb
                  (tokensOK_expectPeek (tokensOK_expectPeek hp₁ _) _)
                split at h
                · -- ELSE present
                  split at h
                  · simp only [Option.some.injEq, Prod.mk.injEq] at h
                    obtain ⟨he, hp⟩ := h
                    subst he; subst hp
                    exact ⟨rfl, tokensOK_expectPeek
                      (tokensOK_nextToken hp₂) _⟩
                  · cases ha : parseBlockStatement n
                      ((p₂.nextToken.expectPeek "\x7b").2) with
                    | none => rw [ha] at h; exact absurd h (by simp)
                    | some ap =>
                      obtain ⟨alt, p₃⟩ := ap
                      rw [ha] at h
                      simp only at h
                      obtain ⟨halt, hp₃⟩ := ihBlock _ _ _ ha
                        (tokensOK_expectPeek (tokensOK_nextToken hp₂) _)
                      simp only [Option.some.injEq, Prod.mk.injEq] at h
                      obtain ⟨he, hp⟩ := h
                      subst he; subst hp
                      exact ⟨by simp [exprNamesOK, hcond, hcons, halt],
                        hp₃⟩
                · simp only [Option.some.injEq, Prod.mk.injEq] at h
                  obtain ⟨he, hp⟩ := h
                  subst he; subst hp
                  exact ⟨by simp [exprNamesOK, hcond, hcons], hp₂⟩
    · -- parseBlockStatement
      intro p ss p' h hOK
      simp only [parseBlockStatement] at h
      exact ihBlockLoop _ _ _ h (tokensOK_nextToken hOK)
    · -- parseBlockLoop
      intro p ss p' h hOK
      simp only [parseBlockLoop] at h
      split at h
      · cases hs : parseStatement n p with
        | none => rw [hs] at h; exact absurd h (by simp)
        | some sp =>
          obtain ⟨stmt, p₁⟩ := sp
          rw [hs] at h
          simp only at h
          obtain ⟨hstmt, hp₁⟩ := ihStmt _ _ _ hs hOK
          cases hr : parseBlockLoop n p₁.nextToken with
          | none => rw [hr] at h; exact absurd h (by simp)
          | some rp =>
            obtain ⟨rest, p₂⟩ := rp
            rw [hr] at h
            simp only at h
            obtain ⟨hrest, hp₂⟩ := ihBlockLoop _ _ _ hr
              (tokensOK_nextToken hp₁)
            simp only [Option.some.injEq, Prod.mk.injEq] at h
            obtain ⟨he, hp⟩ := h
            subst he; subst hp
            exact ⟨by simp [stmtsNamesOK, hstmt, hrest], hp₂⟩
      · simp only [Option.some.injEq, Prod.mk.injEq] at h
        obtain ⟨he, hp⟩ := h
        subst he; subst hp
        exact ⟨rfl, hOK⟩
    · -- parseFunctionLiteral
      intro p e p' h hOK
      simp only [parseFunctionLiteral] at h
      split at h
      · simp only [Option.some.injEq, Prod.mk.injEq] at h
        obtain ⟨he, hp⟩ := h
        subst he; subst hp
        exact ⟨rfl, tokensOK_expectPeek hOK _⟩
      · cases hps : parseFunctionParameters n ((p.expectPeek "(").2) with
        | none => rw [hps] at h; exact absurd h (by simp)
        | some pp =>
          obtain ⟨params, p₁⟩ := pp
          rw [hps] at h
          simp only at h
          have hp₁ := ihParams _ _ _ hps (tokensOK_expectPeek hOK _)
          split at h
          · simp only [Option.some.injEq, Prod.mk.injEq] at h
            obtain ⟨he, hp⟩ := h
            subst he; subst hp
            exact ⟨rfl, tokensOK_expectPeek hp₁ _⟩
          · cases hb : parseBlockStatement n ((p₁.expectPeek "\x7b").2) with
            | none => rw [hb] at h; exact absurd h (by simp)
            | some bp =>
              obtain ⟨body, p₂⟩ := bp
              rw [hb] at h
              simp only at h
              obtain ⟨hbody, hp₂⟩ := ihBlock _ _ _ hb
                (tokensOK_expectPeek hp₁ _)
              simp only [Option.some.injEq, Prod.mk.injEq] at h
              obtain ⟨he, hp⟩ := h
              subst he; subst hp
              exact ⟨by simp [exprNamesOK, hbody], hp₂⟩
    · -- parseFunctionParameters
      intro p xs p' h hOK
      simp only [parseFunctionParameters] at h
      split at h
      · simp only [Option.some.injEq, Prod.mk.injEq] at h
        obtain ⟨he, hp⟩ := h
        subst he; subst hp
        exact tokensOK_nextToken hOK
      · cases hl : parseParamsLoop n p.nextToken with
        | none => rw [hl] at h; exact absurd h (by simp)
        | some lp =>
          obtain ⟨others, p₁⟩ := lp
          rw [hl] at h
          simp only at h
          have hp₁ := ihParamsLoop _ _ _ hl (tokensOK_nextToken hOK)
          split at h
          · simp only [Option.some.injEq, Prod.mk.injEq] at h
            obtain ⟨he, hp⟩ := h
            subst he; subst hp
            exact tokensOK_expectPeek hp₁ _
          · simp only [Option.some.injEq, Prod.mk.injEq] at h
            obtain ⟨he, hp⟩ := h
            subst he; subst hp
            exact tokensOK_expectPeek hp₁ _
    · -- parseParamsLoop
      intro p xs p' h hOK
      simp only [parseParamsLoop] at h
      split at h
      · cases hl : parseParamsLoop n p.nextToken.nextToken with
        | none => rw [hl] at h; exact absurd h (by simp)
        | some lp =>
          obtain ⟨rest, p₁⟩ := lp
          rw [hl] at h
          simp only at h
          have hp₁ := ihParamsLoop _ _ _ hl
            (tokensOK_nextToken (tokensOK_nextToken hOK))
          simp only [Option.some.injEq, Prod.mk.injEq] at h
          obtain ⟨he, hp⟩ := h
          subst he; subst hp
          exact hp₁
      · simp only [Option.some.injEq, Prod.mk.injEq] at h
        obtain ⟨he, hp⟩ := h
        subst he; subst hp
        exact hOK
    · -- parseArrayLiteral
      intro p e p' h hOK
      simp only [parseArrayLiteral] at h
      cases hl : parseExpressionList n "]" p with
      | none => rw [hl] at h; exact absurd h (by simp)
      | some lp =>
        obtain ⟨elems, p₁⟩ := lp
        rw [hl] at h
        simp only at h
        obtain ⟨helems, hp₁⟩ := ihList _ _ _ _ hl hOK
        simp only [Option.some.injEq, Prod.mk.injEq] at h
        obtain ⟨he, hp⟩ := h
        subst he; subst hp
        exact ⟨by simp [exprNamesOK, helems], hp₁⟩
    · -- parseExpressionList
      intro endTok p es p' h hOK
      simp only [parseExpressionList] at h
      split at h
      · simp only [Option.some.injEq, Prod.mk.injEq] at h
        obtain ⟨he, hp⟩ := h
        subst he; subst hp
        exact ⟨rfl, tokensOK_nextToken hOK⟩
      · cases hc : parseExpression n 1 p.nextToken with
        | none => rw [hc] at h; exact absurd h (by simp)
        | some fp =>
          obtain ⟨first, p₁⟩ := fp
          rw [hc] at h
          simp only at h
          obtain ⟨hfirst, hp₁⟩ := ihExpr _ _ _ _ hc (tokensOK_nextToken hOK)
          cases hl : parseExprListLoop n p₁ with
          | none => rw [hl] at h; exact absurd h (by simp)
          | some lp =>
            obtain ⟨rest, p₂⟩ := lp
            rw [hl] at h
            simp only at h
            obtain ⟨hrest, hp₂⟩ := ihListLoop _ _ _ hl hp₁
            split at h
            · simp only [Option.some.injEq, Prod.mk.injEq] at h
              obtain ⟨he, hp⟩ := h
              subst he; subst hp
              exact ⟨by simp [exprsNamesOK, hfirst, hrest],
                tokensOK_expectPeek hp₂ _⟩
            · simp only [Option.some.injEq, Prod.mk.injEq] at h
              obtain ⟨he, hp⟩ := h
              subst he; subst hp
              exact ⟨rfl, tokensOK_expectPeek hp₂ _⟩
    · -- parseExprListLoop
      intro p es p' h hOK
      simp only [parseExprListLoop] at h
      split at h
      · cases hc : parseExpression n 1 p.nextToken.nextToken with
        | none => rw [hc] at h; exact absurd h (by simp)
        | some ep =>
          obtain ⟨e, p₁⟩ := ep
          rw [hc] at h
          simp only at h
          obtain ⟨he1, hp₁⟩ := ihExpr _ _ _ _ hc
            (tokensOK_nextToken (tokensOK_nextToken hOK))
          cases hl : parseExprListLoop n p₁ with
          | none => rw [hl] at h; exact absurd h (by simp)
          | some lp =>
            obtain ⟨rest, p₂⟩ := lp
            rw [hl] at h
            simp only at h
            obtain ⟨hrest, hp₂⟩ := ihListLoop _ _ _ hl hp₁
            simp only [Option.some.injEq, Prod.mk.injEq] at h
            obtain ⟨he, hp⟩ := h
            subst he; subst hp
            exact ⟨by simp [exprsNamesOK, he1, hrest], hp₂⟩
      · simp only [Option.some.injEq, Prod.mk.injEq] at h
        obtain ⟨he, hp⟩ := h
        subst he; subst hp
        exact ⟨rfl, hOK⟩
    · -- parseCallExpression
      intro left p e p' h hOK hleft
      simp only [parseCallExpression] at h
      cases hl : parseExpressionList n ")" p with
      | none => rw [hl] at h; exact absurd h (by simp)
      | some lp =>
        obtain ⟨args, p₁⟩ := lp
        rw [hl] at h
        simp only at h
        obtain ⟨hargs, hp₁⟩ := ihList _ _ _ _ hl hOK
        simp only [Option.some.injEq, Prod.mk.injEq] at h
        obtain ⟨he, hp⟩ := h
        subst he; subst hp
        exact ⟨by simp [exprNamesOK, hleft, hargs], hp₁⟩
    · -- parseIndexExpression
      intro left p e p' h hOK hleft
      simp only [parseIndexExpression] at h
      cases hc : parseExpression n 1 p.nextToken with
      | none => rw [hc] at h; exact absurd h (by simp)
      | some ip =>
        obtain ⟨idx, p₁⟩ := ip
        rw [hc] at h
        simp only at h
        obtain ⟨hidx, hp₁⟩ := ihExpr _ _ _ _ hc (tokensOK_nextToken hOK)
        split at h
        · simp only [Option.some.injEq, Prod.mk.injEq] at h
          obtain ⟨he, hp⟩ := h
          subst he; subst hp
          exact ⟨by simp [exprNamesOK, hleft, hidx],
            tokensOK_expectPeek hp₁ _⟩
        · simp only [Option.some.injEq, Prod.mk.injEq] at h
          obtain ⟨he, hp⟩ := h
          subst he; subst hp
          exact ⟨rfl, tokensOK_expectPeek hp₁ _⟩
    · -- parseHashLiteral
      intro p e p' h hOK
      simp only [parseHashLiteral] at h
      cases hc : parseHashLoop n p with
      | none => rw [hc] at h; exact absurd h (by simp)
      | some rp =>
        obtain ⟨r, p₁⟩ := rp
        rw [hc] at h
        try simp only at h
        obtain ⟨hr, hp₁⟩ := ihHashLoop _ _ _ hc hOK
        cases r with
        | none =>
          try simp only at h
          simp only [Option.some.injEq, Prod.mk.injEq] at h
          obtain ⟨he, hp⟩ := h
          subst he; subst hp
          exact ⟨rfl, hp₁⟩
        | some pairs =>
          try simp only at h
          split at h
          · simp only [Option.some.injEq, Prod.mk.injEq] at h
            obtain ⟨he, hp⟩ := h
            subst he; subst hp
            exact ⟨by simpa [exprNamesOK] using hr pairs rfl,
              tokensOK_expectPeek hp₁ _⟩
          · simp only [Option.some.injEq, Prod.mk.injEq] at h
            obtain ⟨he, hp⟩ := h
            subst he; subst hp
            exact ⟨rfl, tokensOK_expectPeek hp₁ _⟩
    · -- parseHashLoop
      intro p r p' h hOK
      simp only [parseHashLoop] at h
      split at h
      · cases hk : parseExpression n 1 p.nextToken with
        | none => rw [hk] at h; exact absurd h (by simp)
        | some kp =>
          obtain ⟨key, p₁⟩ := kp
          rw [hk] at h
          simp only at h
          obtain ⟨hkey, hp₁⟩ := ihExpr _ _ _ _ hk (tokensOK_nextToken hOK)
          split at h
          · simp only [Option.some.injEq, Prod.mk.injEq] at h
            obtain ⟨he, hp⟩ := h
            subst he; subst hp
            exact ⟨by intro ps hps; exact absurd hps (by simp),
              tokensOK_expectPeek hp₁ _⟩
          · cases hv : parseExpression n 1 ((p₁.expectPeek ":").2.nextToken)
              with
            | none => rw [hv] at h; exact absurd h (by simp)
            | some vp =>
              obtain ⟨value, p₂⟩ := vp
              rw [hv] at h
              simp only at h
              obtain ⟨hvalue, hp₂⟩ := ihExpr _ _ _ _ hv
                (tokensOK_nextToken (tokensOK_expectPeek hp₁ _))
              split at h
              · split at h
                · simp only [Option.some.injEq, Prod.mk.injEq] at h
                  obtain ⟨he, hp⟩ := h
                  subst he; subst hp
                  exact ⟨by intro ps hps; exact absurd hps (by simp),
                    tokensOK_expectPeek hp₂ _⟩
                · cases hrec : parseHashLoop n ((p₂.expectPeek ",").2) with
                  | none => rw [hrec] at h; exact absurd h (by simp)
                  | some rp₂ =>
                    obtain ⟨r₂, p₃⟩ := rp₂
                    rw [hrec] at h
                    try simp only at h
                    obtain ⟨hr₂, hp₃⟩ := ihHashLoop _ _ _ hrec
                      (tokensOK_expectPeek hp₂ _)
                    cases r₂ with
                    | none =>
                      try simp only at h
                      simp only [Option.some.injEq, Prod.mk.injEq] at h
                      obtain ⟨he, hp⟩ := h
                      subst he; subst hp
                      exact ⟨by intro ps hps; exact absurd hps (by simp),
                        hp₃⟩
                    | some rest =>
                      try simp only at h
                      simp only [Option.some.injEq, Prod.mk.injEq] at h
                      obtain ⟨he, hp⟩ := h
                      subst he; subst hp
                      refine ⟨?_, hp₃⟩
                      intro ps hps
                      simp only [Option.some.injEq] at hps
                      subst hps
                      simp [pairsNamesOK, hkey, hvalue, hr₂ rest rfl]
              · cases hrec : parseHashLoop n p₂ with
                | none => rw [hrec] at h; exact absurd h (by simp)
                | some rp₂ =>
                  obtain ⟨r₂, p₃⟩ := rp₂
                  rw [hrec] at h
                  try simp only at h
                  obtain ⟨hr₂, hp₃⟩ := ihHashLoop _ _ _ hrec hp₂
                  cases r₂ with
                  | none =>
                    try simp only at h
                    simp only [Option.some.injEq, Prod.mk.injEq] at h
                    obtain ⟨he, hp⟩ := h
                    subst he; subst hp
                    exact ⟨by intro ps hps; exact absurd hps (by simp),
                      hp₃⟩
                  | some rest =>
                    try simp only at h
                    simp only [Option.some.injEq, Prod.mk.injEq] at h
                    obtain ⟨he, hp⟩ := h
                    subst he; subst hp
                    refine ⟨?_, hp₃⟩
                    intro ps hps
                    simp only [Option.some.injEq] at hps
                    subst hps
                    simp [pairsNamesOK, hkey, hvalue, hr₂ rest rfl]
      · simp only [Option.some.injEq, Prod.mk.injEq] at h
        obtain ⟨he, hp⟩ := h
        subst he; subst hp
        refine ⟨?_, hOK⟩
        intro ps hps
        simp only [Option.some.injEq] at hps
        subst hps
        rfl
    · -- parseLetStatement
      intro p s p' h hOK
      simp only [parseLetStatement] at h
      split at h
      · simp only [Option.some.injEq, Prod.mk.injEq] at h
        obtain ⟨he, hp⟩ := h
        subst he; subst hp
        exact ⟨rfl, tokensOK_expectPeek hOK _⟩
      · next hq1 =>
        have hq1' : (p.expectPeek "IDENT").1 = true := by
          revert hq1
          cases (p.expectPeek "IDENT").1 <;> simp
        obtain ⟨hcur, htype⟩ := expectPeek_true hq1'
        have hpk : tokOK p.peekToken = true := by
          have hOK' := hOK
          simp only [PState.tokensOK, Bool.and_eq_true] at hOK'
          exact hOK'.1.2
        have hname : p.peekToken.literal ≠ "" := by
          simp only [tokOK, htype, bne_self_eq_false, Bool.false_or,
            bne_iff_ne, ne_eq] at hpk
          exact hpk
        split at h
        · simp only [Option.some.injEq, Prod.mk.injEq] at h
          obtain ⟨he, hp⟩ := h
          subst he; subst hp
          exact ⟨rfl, tokensOK_expectPeek (tokensOK_expectPeek hOK _) _⟩
        · cases hv : parseExpression n 1
            ((((p.expectPeek "IDENT").2.expectPeek "=").2).nextToken) with
          | none => rw [hv] at h; exact absurd h (by simp)
          | some vp =>
            obtain ⟨value, p₁⟩ := vp
            rw [hv] at h
            simp only at h
            obtain ⟨hvalue, hp₁⟩ := ihExpr _ _ _ _ hv
              (tokensOK_nextToken
                (tokensOK_expectPeek (tokensOK_expectPeek hOK _) _))
            simp only [Option.some.injEq, Prod.mk.injEq] at h
            obtain ⟨he, hp⟩ := h
            subst he; subst hp
            refine ⟨?_, tokensOK_semiSkip hp₁⟩
            have hnm : (p.expectPeek "IDENT").2.curToken.literal ≠ "" := by
              rw [hcur]
              exact hname
            cases value with
            | fnLit nm ps body =>
              simp only [exprNamesOK, Bool.and_eq_true] at hvalue
              simp [stmtNamesOK, hvalue.2, hnm]
            | nilE => exact hvalue
            | ident v => exact hvalue
            | intLit v => exact hvalue
            | strLit v => exact hvalue
            | boolLit b => exact hvalue
            | prefixE op r => exact hvalue
            | infixE op l r => exact hvalue
            | ifE c cs a => exact hvalue
            | call f a => exact hvalue
            | arrayLit es => exact hvalue
            | hashLit ps => exact hvalue
            | indexE l i => exact hvalue
    · -- parseReturnStatement
      intro p s p' h hOK
      simp only [parseReturnStatement] at h
      cases hv : parseExpression n 1 p.nextToken with
      | none => rw [hv] at h; exact absurd h (by simp)
      | some vp =>
        obtain ⟨v, p₁⟩ := vp
        rw [hv] at h
        simp only at h
        obtain ⟨hval, hp₁⟩ := ihExpr _ _ _ _ hv (tokensOK_nextToken hOK)
        simp only [Option.some.injEq, Prod.mk.injEq] at h
        obtain ⟨he, hp⟩ := h
        subst he; subst hp
        exact ⟨hval, tokensOK_semiSkip hp₁⟩
    · -- parseExpressionStatement
      intro p s p' h hOK
      simp only [parseExpressionStatement] at h
      cases he' : parseExpression n 1 p with
      | none => rw [he'] at h; exact absurd h (by simp)
      | some ep =>
        obtain ⟨e, p₁⟩ := ep
        rw [he'] at h
        obtain ⟨hval, hp₁⟩ := ihExpr _ _ _ _ he' hOK
        simp only [Option.some.injEq, Prod.mk.injEq] at h
        obtain ⟨he, hp⟩ := h
        subst he; subst hp
        exact ⟨hval, tokensOK_semiSkip hp₁⟩
    · -- parseStatement
      intro p s p' h hOK
      simp only [parseStatement] at h
      split at h
      · exact ihLet _ _ _ h hOK
      · exact ihRet _ _ _ h hOK
      · exact ihExprStmt _ _ _ h hOK
    · -- parseProgram
      intro p ss p' h hOK
      simp only [parseProgram] at h
      split at h
      · cases hs : parseStatement n p with
        | none => rw [hs] at h; exact absurd h (by simp)
        | some sp =>
          obtain ⟨stmt, p₁⟩ := sp
          rw [hs] at h
          simp only at h
          obtain ⟨hstmt, hp₁⟩ := ihStmt _ _ _ hs hOK
          cases hr : parseProgram n p₁.nextToken with
          | none => rw [hr] at h; exact absurd h (by simp)
          | some rp =>
            obtain ⟨rest, p₂⟩ := rp
            rw [hr] at h
            simp only at h
            obtain ⟨hrest, hp₂⟩ := ihProg _ _ _ hr (tokensOK_nextToken hp₁)
            simp only [Option.some.injEq, Prod.mk.injEq] at h
            obtain ⟨he, hp⟩ := h
            subst he; subst hp
            exact ⟨by simp [stmtsNamesOK, hstmt, hrest], hp₂⟩
      · simp only [Option.some.injEq, Prod.mk.injEq] at h
        obtain ⟨he, hp⟩ := h
        subst he; subst hp
        exact ⟨rfl, hOK⟩

/-- The token stream of the source text `let x = fn() {};`. -/
def letFnTokens : List Token :=
  [⟨"LET", "let"⟩, ⟨"IDENT", "x"⟩, ⟨"=", "="⟩, ⟨"FUNCTION", "fn"⟩,
   ⟨"(", "("⟩, ⟨")", ")"⟩, ⟨"\x7b", "\x7b"⟩, ⟨"\x7d", "\x7d"⟩,
   ⟨";", ";"⟩]

/-- C8: for every program the parser produces from a well-formed token
stream (every IDENT token has a non-empty literal, which the lexer
guarantees), a FunctionLiteral that is the right-hand-side value of a let
statement carries that let target's non-empty name, and a function
literal in any other position carries the empty name
(`stmtsNamesOK`). -/
theorem fn_name_set_iff_let_rhs (fuel : Nat) (toks : List Token)
    (prog : List Stmt) (st : PState)
    (hWF : (initPState toks).tokensOK)
    (h : parseProgram fuel (initPState toks) = some (prog, st)) :
    stmtsNamesOK prog := by
  have hp :=
    (namesOK_parse
      fuel).2.2.2.2.2.2.2.2.2.2.2.2.2.2.2.2.2.2.2.2.2.2.2.2
  exact (hp _ _ _ h hWF).1

/-- C8 (witness): parsing `let x = fn() {};` yields a program whose only
function literal sits as the let's value and carries the name `x`. -/
theorem fn_name_set_iff_let_rhs_witness :
    stmtsNamesOK [Stmt.letS "x" (.fnLit "x" [] [])] :=
  fn_name_set_iff_let_rhs 100 letFnTokens
    [Stmt.letS "x" (.fnLit "x" [] [])]
    ⟨⟨"EOF", ""⟩, ⟨"EOF", ""⟩, [], []⟩ (by decide) rfl


end Monkey
